import Mathlib

/-!
# Verification of the `segments` pixel-image → DXF/PNG converter

A shallow embedding of `src/segments.py` and proofs of the specification
claims about it.  Pixels are RGBA tuples with byte channels (the decoder
`create_color_array` converts every input to PIL "RGBA" mode, whose
channels are 8-bit).  Python lists become Lean lists, the `visited`
boolean grid becomes a finite set of coordinates, dictionaries with
insertion order become association lists, floats become exact rationals,
and the file-writing side effects of `draw_region_outlines` / `main`
become explicit event lists.
-/

/-! ## Basic data model -/

/-- One 8-bit channel of a PIL "RGBA" pixel. -/
abbrev Byte := Fin 256

/-- A pixel as returned by `Image.getpixel` on an "RGBA" image:
the 4-tuple `(r, g, b, a)`. -/
structure RGBA where
  r : Byte
  g : Byte
  b : Byte
  a : Byte
deriving DecidableEq, Repr

/-- `pixel[:3]`: the RGB part of a pixel. -/
def RGBA.rgb (p : RGBA) : Byte × Byte × Byte := (p.r, p.g, p.b)

/-- A pixel coordinate `(x, y)`; `ℤ` because the flood fill forms `x±1`, `y±1`
before bounds-checking. -/
abbrev Coord := ℤ × ℤ

/-- `len(grid[0])` — the width the code derives from the first row
(`0` for an empty grid, where Python would raise). -/
def widthOf (g : List (List α)) : ℕ := (g.headD []).length

/-- `len(grid)` — the number of rows. -/
def heightOf (g : List (List α)) : ℕ := g.length

/-- The grid is rectangular: every row has the width of the first row.
All images decoded by PIL satisfy this. -/
def Rectangular (g : List (List α)) : Prop := ∀ row ∈ g, row.length = widthOf g

instance (g : List (List α)) : Decidable (Rectangular g) := List.decidableBAll _ g

/-- `grid[y][x]` for nonnegative in-bounds indices (total via defaults;
the program only reads it after a bounds check). -/
def pixDZ (g : List (List RGBA)) (x y : ℤ) : RGBA :=
  (g.getD y.toNat []).getD x.toNat ⟨0, 0, 0, 0⟩

/-! ## `rgb_to_hex` (segments.py lines 14–16)

`f"{r:02X}{g:02X}{b:02X}"`: for byte channels each `{·:02X}` is exactly the
two uppercase hex digits. -/

/-- One uppercase hexadecimal digit. -/
def hexDigitChar (n : ℕ) : Char := "0123456789ABCDEF".toList.getD n '0'

/-- `"{:02X}".format b` for a byte `b`: two uppercase hex digits. -/
def byteHex (b : Byte) : List Char := [hexDigitChar (b.val / 16), hexDigitChar (b.val % 16)]

/-- `rgb_to_hex`: six-character uppercase hex string of an RGB triple. -/
def rgb_to_hex (c : Byte × Byte × Byte) : String :=
  ⟨byteHex c.1 ++ byteHex c.2.1 ++ byteHex c.2.2⟩

/-- `convert_array_to_hex`: per pixel, its hex string if `pixel[3] > 0`,
else `None` (transparent pixels are ignored). -/
def convert_array_to_hex (g : List (List RGBA)) : List (List (Option String)) :=
  g.map (fun row => row.map (fun p => if 0 < p.a.val then some (rgb_to_hex p.rgb) else none))

/-! ## `find_closest_aci` (segments.py lines 30–36)

The palette constants live in `aci_table.py`, which is not part of the
sources at hand; the lookup is therefore parameterized by an arbitrary
table `List (index × (r, g, b))` standing for `ACI_COLORS.items()` in the
dict's insertion order. -/

/-- The value of one hexadecimal digit character (model of what `int(s, 16)`
does per character; junk characters never occur on the strings the program
builds). -/
def hexCharVal (c : Char) : ℕ :=
  if '0' ≤ c ∧ c ≤ '9' then c.toNat - '0'.toNat
  else if 'A' ≤ c ∧ c ≤ 'F' then c.toNat - 'A'.toNat + 10
  else if 'a' ≤ c ∧ c ≤ 'f' then c.toNat - 'a'.toNat + 10
  else 0

/-- `int(s, 16)` on a string of hex digits. -/
def pyIntHex (cs : List Char) : ℕ := cs.foldl (fun acc c => 16 * acc + hexCharVal c) 0

/-- Python's `min(iterable, key=k)`: the first element attaining the minimal
key (`none` on the empty iterable, where Python raises `ValueError`). -/
def pyMinBy (k : α → ℤ) : List α → Option α
  | [] => none
  | x :: xs => some (xs.foldl (fun best y => if k y < k best then y else best) x)

/-- An `ACI_COLORS.items()` list: `(aci index, (r, g, b))` in insertion order. -/
abbrev AciTable := List (ℕ × (ℕ × ℕ × ℕ))

/-- The squared Euclidean RGB distance `(r - R)**2 + (g - G)**2 + (b - B)**2`
used as the `min` key in `find_closest_aci`. -/
def aciDist (r g b : ℕ) (e : ℕ × ℕ × ℕ) : ℤ :=
  ((r : ℤ) - e.1) ^ 2 + ((g : ℤ) - e.2.1) ^ 2 + ((b : ℤ) - e.2.2) ^ 2

/-- `find_closest_aci`: parse `hex_color[:2]`, `hex_color[2:4]`, `hex_color[4:]`
and return the index of the table entry minimizing the squared RGB distance
(first entry wins ties, as for Python's `min`). -/
def find_closest_aci (table : AciTable) (hex_color : String) : Option ℕ :=
  let cs := hex_color.toList
  let r := pyIntHex (cs.take 2)
  let g := pyIntHex ((cs.drop 2).take 2)
  let b := pyIntHex (cs.drop 4)
  (pyMinBy (fun e => aciDist r g b e.2) table).map (·.1)

/-! ## `find_connected_regions` (segments.py lines 45–71) -/

/-- A grid of hex color keys with `none` for transparent pixels
(the output of `convert_array_to_hex`). -/
abbrev HexGrid := List (List (Option String))

/-- `color_array[y][x]` on the hex grid (total via defaults; reads are
guarded by bounds checks exactly as in the code). -/
def cellD (g : HexGrid) (x y : ℤ) : Option String :=
  (g.getD y.toNat []).getD x.toNat none

/-- The set of in-bounds coordinates `[0, width) × [0, height)`. -/
def boundsF (g : List (List α)) : Finset Coord :=
  (Finset.Ico 0 (widthOf g : ℤ)) ×ˢ (Finset.Ico 0 (heightOf g : ℤ))

theorem mem_boundsF {g : List (List α)} {p : Coord} :
    p ∈ boundsF g ↔ 0 ≤ p.1 ∧ p.1 < (widthOf g : ℤ) ∧ 0 ≤ p.2 ∧ p.2 < (heightOf g : ℤ) := by
  cases p with
  | mk x y =>
    simp only [boundsF, Finset.mem_product, Finset.mem_Ico]
    tauto

/-- `explore_region`: the explicit-stack flood fill.  The Lean list models the
Python stack with its head as the top (`pop` takes the head; `extend` with
`[(cx+1,cy), (cx-1,cy), (cx,cy+1), (cx,cy-1)]` leaves `(cx,cy-1)` on top).
`visited` is the set of coordinates whose `visited[cy][cx]` flag is `True`,
and `region` accumulates the member list in append order.
Returns the final `(region, visited)`. -/
def explore (g : HexGrid) (color : String) :
    List Coord → Finset Coord → List Coord → List Coord × Finset Coord
  | [], visited, region => (region, visited)
  | (cx, cy) :: rest, visited, region =>
      if ¬ (0 ≤ cx ∧ cx < (widthOf g : ℤ) ∧ 0 ≤ cy ∧ cy < (heightOf g : ℤ)) ∨
          (cx, cy) ∈ visited ∨ cellD g cx cy ≠ some color then
        explore g color rest visited region
      else
        explore g color ((cx, cy - 1) :: (cx, cy + 1) :: (cx - 1, cy) :: (cx + 1, cy) :: rest)
          (insert (cx, cy) visited) (region ++ [(cx, cy)])
  termination_by stack visited _ => ((boundsF g \ visited).card, stack.length)
  decreasing_by
  · apply Prod.Lex.right
    simp
  · apply Prod.Lex.left
    apply Finset.card_lt_card
    constructor
    · exact Finset.sdiff_subset_sdiff (le_refl _) (Finset.subset_insert _ _)
    · intro hsub
      push_neg at *
      rename_i h
      have hb : (cx, cy) ∈ boundsF g := mem_boundsF.mpr ⟨h.1.1, h.1.2.1, h.1.2.2.1, h.1.2.2.2⟩
      have h1 : (cx, cy) ∈ boundsF g \ visited := Finset.mem_sdiff.mpr ⟨hb, h.2.1⟩
      have h2 := hsub h1
      rw [Finset.mem_sdiff] at h2
      exact h2.2 (Finset.mem_insert_self _ _)

/-- The `regions` dictionary: hex color → list of regions, in insertion order. -/
abbrev RegionsMap := List (String × List (List Coord))

/-- `regions.setdefault(color, []).append(region)`. -/
def setdefaultAppend (m : RegionsMap) (c : String) (r : List Coord) : RegionsMap :=
  if m.any (fun e => e.1 == c) then
    m.map (fun e => if e.1 == c then (e.1, e.2 ++ [r]) else e)
  else m ++ [(c, [r])]

/-- One iteration of the double scan loop of `find_connected_regions` at
coordinate `p`: skip visited or transparent pixels, otherwise flood-fill a
new region from `p` and record it under its color. -/
def fcrStep (g : HexGrid) (st : Finset Coord × RegionsMap) (p : Coord) :
    Finset Coord × RegionsMap :=
  if p ∈ st.1 then st
  else
    match cellD g p.1 p.2 with
    | none => st
    | some c =>
        let res := explore g c [p] st.1 []
        if res.1 ≠ [] then (res.2, setdefaultAppend st.2 c res.1) else (res.2, st.2)

/-- The row-major scan order `for y in range(height): for x in range(width)`. -/
def rowMajor (g : HexGrid) : List Coord :=
  (List.range (heightOf g)).flatMap
    (fun (y : ℕ) => (List.range (widthOf g)).map (fun (x : ℕ) => (((x : ℤ), (y : ℤ)) : Coord)))

/-- `find_connected_regions`: scan the grid, flood-filling maximal
same-colored 4-connected regions. -/
def find_connected_regions (g : HexGrid) : RegionsMap :=
  ((rowMajor g).foldl (fcrStep g) (∅, [])).2

/-- The final visited set of the scan (the `visited` grid at return). -/
def fcrVisited (g : HexGrid) : Finset Coord :=
  ((rowMajor g).foldl (fcrStep g) (∅, [])).1

/-- All regions of a regions map, every color together. -/
def allRegions (m : RegionsMap) : List (List Coord) := m.flatMap (·.2)

/-! ## `draw_region_outlines` (segments.py lines 74–120) -/

/-- One `msp.add_line(p1, p2, {"layer": layer})` call: a straight unit
segment with its layer attribute.  Coordinates are exact rationals standing
for the Python floats `x * pixel_size` (no rounding happens in the code:
the claims are about which products appear, not about float error). -/
structure Seg where
  p1 : ℚ × ℚ
  p2 : ℚ × ℚ
  layer : String
deriving DecidableEq, Repr

/-- The (up to four) segments emitted for region pixel `(x, y)`:
left, right, top, bottom, each guarded by `neighbor not in region`
(Python list membership), in the order of the code. -/
def segsForPixel (region : List Coord) (ps : ℚ) (layer : String) (p : Coord) : List Seg :=
  let x := p.1
  let y := p.2
  (if (x - 1, y) ∉ region then
    [⟨((x : ℚ) * ps, -(y : ℚ) * ps), ((x : ℚ) * ps, -((y : ℚ) + 1) * ps), layer⟩] else []) ++
  (if (x + 1, y) ∉ region then
    [⟨(((x : ℚ) + 1) * ps, -(y : ℚ) * ps), (((x : ℚ) + 1) * ps, -((y : ℚ) + 1) * ps), layer⟩]
   else []) ++
  (if (x, y - 1) ∉ region then
    [⟨((x : ℚ) * ps, -(y : ℚ) * ps), (((x : ℚ) + 1) * ps, -(y : ℚ) * ps), layer⟩] else []) ++
  (if (x, y + 1) ∉ region then
    [⟨((x : ℚ) * ps, -((y : ℚ) + 1) * ps), (((x : ℚ) + 1) * ps, -((y : ℚ) + 1) * ps), layer⟩]
   else [])

/-- All segments emitted for one region (the `for x, y in region` loop). -/
def outlineSegments (region : List Coord) (ps : ℚ) (layer : String) : List Seg :=
  region.flatMap (segsForPixel region ps layer)

/-- Of the four sides of `p`, how many have their 4-neighbor outside `region`
(the brute-force recount the spec describes). -/
def sideCount (region : List Coord) (p : Coord) : ℕ :=
  (if (p.1 - 1, p.2) ∉ region then 1 else 0) + (if (p.1 + 1, p.2) ∉ region then 1 else 0) +
  (if (p.1, p.2 - 1) ∉ region then 1 else 0) + (if (p.1, p.2 + 1) ∉ region then 1 else 0)

/-- The observable state of an `ezdxf` document: the `$INSUNITS` header
value, the layers added by the code (name and ACI color; `none` records the
error Python would raise looking up an empty palette), and the modelspace
line entities.  The library's own default layers (`"0"`, and `"Defpoints"`,
which the code removes right after `ezdxf.new()`) are outside the model. -/
structure DxfDoc where
  insunits : ℕ
  layers : List (String × Option ℕ)
  lines : List Seg
deriving DecidableEq, Repr

/-- `ezdxf.new()` followed by `doc.header["$INSUNITS"] = unit` and the
`"Defpoints"` removal. -/
def emptyDoc (unit : ℕ) : DxfDoc := ⟨unit, [], []⟩

/-- `doc.layers.add(name=nm, color=aci)`. -/
def addLayer (d : DxfDoc) (nm : String) (aci : Option ℕ) : DxfDoc :=
  { d with layers := d.layers ++ [(nm, aci)] }

/-- Appending the `msp.add_line` calls for one region. -/
def addLines (d : DxfDoc) (ss : List Seg) : DxfDoc :=
  { d with lines := d.lines ++ ss }

/-- `layer_name.lstrip('#')`. -/
def lstripHash (s : String) : String := ⟨s.toList.dropWhile (· == '#')⟩

/-- `os.path.join` for the paths the program builds. -/
def pathJoin (a b : String) : String := if a == "" then b else a ++ "/" ++ b

/-- The body of `draw_region_outlines` for one `(hex_color, color_regions)`
item of the regions dict.  State: the shared multi-mode document and the
`saveas` events `(path, document written)` so far. -/
def drawColorStep (table : AciTable) (output_path : String) (ps : ℚ) (unit : ℕ)
    (mode : String) (st : DxfDoc × List (String × DxfDoc))
    (e : String × List (List Coord)) : DxfDoc × List (String × DxfDoc) :=
  let aci : Option ℕ := if mode == "multi_colored" then find_closest_aci table e.1 else some 7
  let layer : String := if mode == "mono" then "segments" else "#" ++ e.1
  if mode == "singles" then
    -- a fresh document per color; `saveas` runs after every region of the color,
    -- rewriting the same file
    let start := addLayer (emptyDoc unit) layer aci
    let res := e.2.foldl
      (fun (acc : DxfDoc × List (String × DxfDoc)) r =>
        let d := addLines acc.1 (outlineSegments r ps layer)
        (d, acc.2 ++ [(pathJoin output_path ("HEX_" ++ lstripHash layer ++ ".dxf"), d)]))
      (start, [])
    (st.1, st.2 ++ res.2)
  else
    let d0 := if st.1.layers.any (fun l => l.1 == layer) then st.1 else addLayer st.1 layer aci
    let d1 := e.2.foldl (fun dd r => addLines dd (outlineSegments r ps layer)) d0
    (d1, st.2)

/-- `draw_region_outlines`: returns the list of `saveas` events
`(path, document)` in order.  In the non-`singles` modes this is the single
final `doc.saveas(output_path + ".dxf")`; in `singles` mode one event per
region save (the last event per path is the file's final content). -/
def draw_region_outlines (table : AciTable) (regions : RegionsMap) (output_path : String)
    (ps : ℚ) (unit : ℕ) (mode : String) : List (String × DxfDoc) :=
  let st := regions.foldl (drawColorStep table output_path ps unit mode) (emptyDoc unit, [])
  if mode != "singles" then st.2 ++ [(output_path ++ ".dxf", st.1)] else st.2

/-! ## `needs_border` (segments.py lines 123–136) -/

/-- `needs_border`: a border is drawn when the neighbor in direction
`(dx, dy)` is out of bounds, transparent, or of a different RGB color. -/
def needs_border (rgb_array : List (List RGBA)) (x y dx dy : ℤ) (color : Byte × Byte × Byte) :
    Bool :=
  let nx := x + dx
  let ny := y + dy
  if nx < 0 ∨ (widthOf rgb_array : ℤ) ≤ nx ∨ ny < 0 ∨ (heightOf rgb_array : ℤ) ≤ ny then
    true
  else
    let np := pixDZ rgb_array nx ny
    decide (np.a.val = 0 ∨ np.rgb ≠ color)

/-! ## `array_to_pngs` (segments.py lines 139–159) -/

/-- `set(tuple(pixel[:3]) for row in rgb_array for pixel in row if pixel[3] > 0)`,
as the list of first occurrences in scan order (Python's set iteration order
is unspecified; no claim depends on it). -/
def uniqueColors (g : List (List RGBA)) : List (Byte × Byte × Byte) :=
  (((g.flatMap id).filter (fun p => 0 < p.a.val)).map RGBA.rgb).dedup

/-- The single-color mask built for `color`: start from a
`width × height` image of `(0, 0, 0, 0)` and `putpixel` the original RGBA
value wherever the pixel is non-transparent and of that color. -/
def maskFor (g : List (List RGBA)) (color : Byte × Byte × Byte) : List (List RGBA) :=
  (List.range (heightOf g)).map (fun y =>
    (List.range (widthOf g)).map (fun x =>
      let c := (g.getD y []).getD x ⟨0, 0, 0, 0⟩
      if 0 < c.a.val ∧ c.rgb = color then c else ⟨0, 0, 0, 0⟩))

/-- `array_to_pngs`: one `HEX_<hex>.png` mask per distinct color. -/
def array_to_pngs (g : List (List RGBA)) : List (String × List (List RGBA)) :=
  (uniqueColors g).map (fun c => ("HEX_" ++ lstripHash (rgb_to_hex c) ++ ".png", maskFor g c))

/-! ## `array_to_scaled_png` (segments.py lines 162–228) -/

/-- Python `int()` on a float/rational: truncation toward zero. -/
def pyTrunc (q : ℚ) : ℤ := if 0 ≤ q then ⌊q⌋ else ⌈q⌉

/-- `int(pixel_size * 300 / (25.4 if unit == "mm" else 1))`. -/
def pixel_size_in_pixels (ps : ℚ) (unit : String) : ℤ :=
  pyTrunc (ps * 300 / (if unit == "mm" then 254 / 10 else 1))

/-- One `draw.line(..., fill="black", width=line_width)` call of the preview
raster. -/
structure DrawCmd where
  p1 : ℤ × ℤ
  p2 : ℤ × ℤ
  lineWidth : ℕ
deriving DecidableEq, Repr

/-- The black border lines drawn for one source pixel `(x, y)` of a color:
top, bottom, left, right, each guarded by `needs_border`. -/
def borderCmdsForPixel (g : List (List RGBA)) (k : ℤ) (lw : ℕ)
    (color : Byte × Byte × Byte) (p : Coord) : List DrawCmd :=
  let x := p.1
  let y := p.2
  let tlx := x * k
  let tly := y * k
  let brx := (x + 1) * k
  let bry := (y + 1) * k
  (if needs_border g x y 0 (-1) color then [⟨(tlx, tly), (brx, tly), lw⟩] else []) ++
  (if needs_border g x y 0 1 color then [⟨(tlx, bry), (brx, bry), lw⟩] else []) ++
  (if needs_border g x y (-1) 0 color then [⟨(tlx, tly), (tlx, bry), lw⟩] else []) ++
  (if needs_border g x y 1 0 color then [⟨(brx, tly), (brx, bry), lw⟩] else [])

/-- The pixels of one color class in scan order (the `region_pixels` set;
Python iterates it in unspecified order — no claim depends on it). -/
def colorPixels (g : List (List RGBA)) (color : Byte × Byte × Byte) : List Coord :=
  (rowMajor (g.map (fun row => row.map (fun _ => (none : Option String))))).filter
    (fun p => (pixDZ g p.1 p.2).rgb = color ∧ 0 < (pixDZ g p.1 p.2).a.val)

/-- `array_to_scaled_png`: the allocated image dimensions
`(width * pixel_size_in_pixels, height * pixel_size_in_pixels)` and the
border draw commands. -/
def array_to_scaled_png (g : List (List RGBA)) (ps : ℚ) (unit : String) (lw : ℕ) :
    (ℤ × ℤ) × List DrawCmd :=
  let k := pixel_size_in_pixels ps unit
  (((widthOf g : ℤ) * k, (heightOf g : ℤ) * k),
   (uniqueColors g).flatMap (fun c => (colorPixels g c).flatMap (borderCmdsForPixel g k lw c)))

/-! ## `main` (segments.py lines 230–317)

The filesystem and console effects become an explicit event list; the image
decoder is an oracle parameter `decoded` (the grid `create_color_array`
would return), and `inputExists` / `outputExists` record what
`os.path.exists` reports for the input file and the output folder. -/

/-- `os.path.dirname`: everything before the last `/` (empty if none). -/
def dirName (p : String) : String :=
  ⟨((p.toList.reverse.dropWhile (· ≠ '/')).drop 1).reverse⟩

/-- `os.path.basename`: everything after the last `/`. -/
def baseName (p : String) : String :=
  ⟨(p.toList.reverse.takeWhile (· ≠ '/')).reverse⟩

/-- `os.path.splitext(...)[0]` on a base name: drop from the last `.` on
(for the ordinary file names the tool is used with). -/
def stemOf (s : String) : String :=
  if s.toList.contains '.' then ⟨((s.toList.reverse.dropWhile (· ≠ '.')).drop 1).reverse⟩
  else s

/-- The parsed command-line arguments. -/
structure Args where
  input : String
  output : Option String
  size : ℚ
  unit : String
  linewidth : ℕ

/-- One observable effect of `main`. -/
inductive Event where
  | checkExists (path : String) (found : Bool)
  | rmtree (path : String)
  | makedirs (path : String)
  | printMsg (msg : String)
  | decodeImage (path : String)
  | writeDxf (path : String) (doc : DxfDoc)
  | writePng (path : String)
deriving DecidableEq

/-- `main`: the event trace and the abnormal exit status (`some 1` for the
`raise SystemExit(message)` on a missing input file, `none` for a normal
run). -/
def mainTrace (args : Args) (inputExists outputExists : Bool)
    (decoded : List (List RGBA)) (table : AciTable) : List Event × Option ℕ :=
  let input_name := stemOf (baseName args.input)
  let input_dir := dirName args.input
  if inputExists = false then
    ([Event.checkExists args.input false], some 1)
  else
    let output_name := args.output.getD input_name
    let output_folder := pathJoin input_dir (output_name ++ "_output")
    let dxf_folder := pathJoin output_folder "DXF"
    let singles_folder := pathJoin dxf_folder "Singles"
    let png_folder := pathJoin output_folder "PNG"
    let png_singles := pathJoin png_folder "Single-Color"
    let regions := find_connected_regions (convert_array_to_hex decoded)
    let unitCode : ℕ := if args.unit == "mm" then 4 else 1
    let evs :=
      [Event.checkExists args.input true] ++
      (if outputExists then [Event.rmtree output_folder] else []) ++
      [Event.makedirs output_folder, Event.makedirs dxf_folder, Event.makedirs singles_folder,
       Event.makedirs png_folder, Event.makedirs png_singles] ++
      [Event.printMsg ("Input file: " ++ args.input),
       Event.printMsg ("Pixel size: " ++ toString args.size),
       Event.printMsg ("Unit: " ++ args.unit),
       Event.printMsg ("Line width: " ++ toString args.linewidth ++ "px")] ++
      [Event.decodeImage args.input] ++
      (["mono", "multi", "multi_colored"].flatMap (fun opt =>
        (draw_region_outlines table regions
            (pathJoin dxf_folder (output_name ++ "-" ++ opt)) args.size unitCode opt).map
          (fun e => Event.writeDxf e.1 e.2))) ++
      ((draw_region_outlines table regions singles_folder args.size unitCode "singles").map
        (fun e => Event.writeDxf e.1 e.2)) ++
      [Event.writePng (pathJoin png_folder (output_name ++ "_print.png"))] ++
      ((array_to_pngs decoded).map (fun e => Event.writePng (pathJoin png_singles e.1))) ++
      [Event.printMsg ("Output folder created successfully: " ++ output_folder)]
    (evs, none)

/-- An event that changes the filesystem or consumes the image: directory
deletion or creation, image decoding, or an output file write. -/
def Event.destructive : Event → Prop
  | Event.rmtree _ => True
  | Event.makedirs _ => True
  | Event.decodeImage _ => True
  | Event.writeDxf _ _ => True
  | Event.writePng _ => True
  | _ => False

/-! ## Auxiliary notions used by the statements and invariants -/

/-- The four 4-neighborhood offsets pushed by the flood fill. -/
def dirs : List Coord := [(1, 0), (-1, 0), (0, 1), (0, -1)]

/-- The 4-neighbor of `p` in direction `d`. -/
def nbr (p d : Coord) : Coord := (p.1 + d.1, p.2 + d.2)

/-- `grid[y][x]` with natural indices (for the raster models). -/
def pixN (g : List (List RGBA)) (x y : ℕ) : RGBA :=
  (g.getD y []).getD x ⟨0, 0, 0, 0⟩

/-- `s` is one of the four scaled-corner unit segments of pixel `(x, y)` of
region `r` whose emission condition (4-neighbor not a member of `r`) holds:
the left side runs between `(x·ps, -y·ps)` and `(x·ps, -(y+1)·ps)`, and
correspondingly for the right, top and bottom sides. -/
def cornerSeg (ps : ℚ) (L : String) (r : List Coord) (x y : ℤ) (s : Seg) : Prop :=
  ((x - 1, y) ∉ r ∧
    s = ⟨((x : ℚ) * ps, -(y : ℚ) * ps), ((x : ℚ) * ps, -((y : ℚ) + 1) * ps), L⟩) ∨
  ((x + 1, y) ∉ r ∧
    s = ⟨(((x : ℚ) + 1) * ps, -(y : ℚ) * ps), (((x : ℚ) + 1) * ps, -((y : ℚ) + 1) * ps), L⟩) ∨
  ((x, y - 1) ∉ r ∧
    s = ⟨((x : ℚ) * ps, -(y : ℚ) * ps), (((x : ℚ) + 1) * ps, -(y : ℚ) * ps), L⟩) ∨
  ((x, y + 1) ∉ r ∧
    s = ⟨((x : ℚ) * ps, -((y : ℚ) + 1) * ps), (((x : ℚ) + 1) * ps, -((y : ℚ) + 1) * ps), L⟩)

/-- Everything of a `saveas` event except the `$INSUNITS` header value. -/
def eventView (e : String × DxfDoc) : String × List (String × Option ℕ) × List Seg :=
  (e.1, e.2.layers, e.2.lines)

/-- Every line of the document comes from the outline of some region of `m`. -/
def LinesOK (m : RegionsMap) (ps : ℚ) (d : DxfDoc) : Prop :=
  ∀ s ∈ d.lines, ∃ r ∈ allRegions m, ∃ L, s ∈ outlineSegments r ps L

/-- The invariant
of the scan loop of `find_connected_regions`: the regions
found so far have pairwise distinct color keys; their pixels are in bounds
and carry their region's color key; every coordinate lies in exactly one
region iff it is visited (and in none otherwise); and every region is closed
under same-colored in-bounds 4-neighbors. -/
structure SegInv (g : HexGrid) (v : Finset Coord) (m : RegionsMap) : Prop where
  keys : (m.map Prod.fst).Nodup
  colors : ∀ e ∈ m, ∀ r ∈ e.2, ∀ p ∈ r, p ∈ boundsF g ∧ cellD g p.1 p.2 = some e.1
  count : ∀ p : Coord, (allRegions m).countP (fun r => decide (p ∈ r)) = if p ∈ v then 1 else 0
  closed : ∀ e ∈ m, ∀ r ∈ e.2, ∀ p ∈ r, ∀ d ∈ dirs,
    nbr p d ∈ boundsF g → cellD g (nbr p d).1 (nbr p d).2 = some e.1 → nbr p d ∈ r

/-- The 2×1 scenario grid: left pixel opaque red, right pixel opaque green. -/
def gex : List (List RGBA) := [[⟨255, 0, 0, 255⟩, ⟨0, 255, 0, 255⟩]]

/-- A 1×1 grid whose pixel is half-transparent (alpha 128). -/
def gAlpha : List (List RGBA) := [[⟨1, 2, 3, 128⟩]]

/-- A 1×2 grid with one opaque and one fully transparent pixel. -/
def gMix : List (List RGBA) := [[⟨5, 6, 7, 255⟩, ⟨0, 0, 0, 0⟩]]

/-! # Theorems -/

/-! ## Scale computation (claims C8 and C10) -/

theorem pyTrunc_nonneg_eq_floor {q : ℚ} (h : 0 ≤ q) : pyTrunc q = ⌊q⌋ := by
  simp [pyTrunc, h]

/-- C8: For every positive `pixel_size` and unit in `{mm, inch}`,
`array_to_scaled_png` computes the per-source-pixel block size as the
truncation (= floor, the value being nonnegative) of
`pixel_size * 300 / 25.4` for millimeters and of `pixel_size * 300 / 1` for
inches, and allocates the combined preview raster with dimensions
`width * blockSize` by `height * blockSize`. -/
theorem c8_scale_computation (ps : ℚ) (hps : 0 < ps) (g : List (List RGBA))
    (u : String) (lw : ℕ) (hu : u = "mm" ∨ u = "inch") :
    pixel_size_in_pixels ps "mm" = ⌊ps * 300 / (254 / 10)⌋ ∧
    pixel_size_in_pixels ps "inch" = ⌊ps * 300 / 1⌋ ∧
    (array_to_scaled_png g ps u lw).1 =
      ((widthOf g : ℤ) * pixel_size_in_pixels ps u,
       (heightOf g : ℤ) * pixel_size_in_pixels ps u) := by
  refine ⟨?_, ?_, rfl⟩
  · rw [pixel_size_in_pixels, if_pos (by decide)]
    apply pyTrunc_nonneg_eq_floor
    positivity
  · rw [pixel_size_in_pixels, if_neg (by decide)]
    apply pyTrunc_nonneg_eq_floor
    positivity

/-- Witness for C8 at `pixel_size = 5`, the default. -/
theorem c8_scale_computation_witness :
    (0 : ℚ) < 5 ∧ ("mm" = "mm" ∨ "mm" = "inch") ∧
    (pixel_size_in_pixels 5 "mm" = ⌊(5 : ℚ) * 300 / (254 / 10)⌋ ∧
     pixel_size_in_pixels 5 "inch" = ⌊(5 : ℚ) * 300 / 1⌋ ∧
     (array_to_scaled_png gex 5 "mm" 2).1 =
       ((widthOf gex : ℤ) * pixel_size_in_pixels 5 "mm",
        (heightOf gex : ℤ) * pixel_size_in_pixels 5 "mm")) :=
  ⟨by norm_num, Or.inl rfl, c8_scale_computation 5 (by norm_num) gex "mm" 2 (Or.inl rfl)⟩

/-- C10: Any positive `pixel_size` strictly below `25.4/300` with unit
millimeters (or below `1/300` with unit inches) makes the integer block size
truncate to 0, so the combined preview raster is allocated with width 0 and
height 0 regardless of the input image's dimensions. -/
theorem c10_degenerate_scale (g g' : List (List RGBA)) (lw : ℕ) (ps psi : ℚ)
    (h1 : 0 < ps) (h2 : ps < 254 / 10 / 300) (h3 : 0 < psi) (h4 : psi < 1 / 300) :
    pixel_size_in_pixels ps "mm" = 0 ∧ (array_to_scaled_png g ps "mm" lw).1 = (0, 0) ∧
    pixel_size_in_pixels psi "inch" = 0 ∧ (array_to_scaled_png g' psi "inch" lw).1 = (0, 0) := by
  have hmm : pixel_size_in_pixels ps "mm" = 0 := by
    rw [pixel_size_in_pixels, if_pos (by decide), pyTrunc_nonneg_eq_floor (by positivity)]
    rw [Int.floor_eq_zero_iff]
    constructor
    · positivity
    · rw [div_lt_one (by norm_num)]
      linarith
  have hin : pixel_size_in_pixels psi "inch" = 0 := by
    rw [pixel_size_in_pixels, if_neg (by decide), pyTrunc_nonneg_eq_floor (by positivity)]
    rw [Int.floor_eq_zero_iff]
    constructor
    · positivity
    · rw [div_lt_one (by norm_num)]
      linarith
  refine ⟨hmm, ?_, hin, ?_⟩
  · show ((widthOf g : ℤ) * pixel_size_in_pixels ps "mm",
        (heightOf g : ℤ) * pixel_size_in_pixels ps "mm") = (0, 0)
    rw [hmm, mul_zero, mul_zero]
  · show ((widthOf g' : ℤ) * pixel_size_in_pixels psi "inch",
        (heightOf g' : ℤ) * pixel_size_in_pixels psi "inch") = (0, 0)
    rw [hin, mul_zero, mul_zero]

/-- Witness for C10 at `pixel_size = 1/15 mm` and `1/400 inch`. -/
theorem c10_degenerate_scale_witness :
    ((0 : ℚ) < 1 / 15 ∧ (1 / 15 : ℚ) < 254 / 10 / 300 ∧
     (0 : ℚ) < 1 / 400 ∧ (1 / 400 : ℚ) < 1 / 300) ∧
    (pixel_size_in_pixels (1 / 15) "mm" = 0 ∧
     (array_to_scaled_png gex (1 / 15) "mm" 2).1 = (0, 0) ∧
     pixel_size_in_pixels (1 / 400) "inch" = 0 ∧
     (array_to_scaled_png gex (1 / 400) "inch" 2).1 = (0, 0)) :=
  ⟨⟨by norm_num, by norm_num, by norm_num, by norm_num⟩,
   c10_degenerate_scale gex gex 2 (1 / 15) (1 / 400)
     (by norm_num) (by norm_num) (by norm_num) (by norm_num)⟩

/-! ## `main` abort behavior (claim C9) -/

/-- C9: When the input file does not exist, `main` terminates with a
non-zero exit status right after the existence check: the trace contains no
directory deletion, no directory creation, no image decoding and no file
write — no partial output.  When the input file does exist, the existence
check is the very first event, so it precedes the destructive removal and
recreation of the output folder. -/
theorem c9_missing_input_aborts (args : Args) (oe : Bool)
    (decoded : List (List RGBA)) (table : AciTable) :
    (mainTrace args false oe decoded table).2 = some 1 ∧ (1 : ℕ) ≠ 0 ∧
    (mainTrace args false oe decoded table).1 = [Event.checkExists args.input false] ∧
    (∀ e ∈ (mainTrace args false oe decoded table).1, ¬ e.destructive) ∧
    (mainTrace args true oe decoded table).1.head? =
      some (Event.checkExists args.input true) := by
  refine ⟨rfl, by decide, rfl, ?_, ?_⟩
  · intro e he
    have : e = Event.checkExists args.input false := by
      simpa [mainTrace] using he
    subst this
    simp [Event.destructive]
  · rfl

/-! ## Single-color masks (claim C7) -/

theorem getD_range_map {α : Type} (n i : ℕ) (f : ℕ → α) (d : α) (h : i < n) :
    ((List.range n).map f).getD i d = f i := by
  rw [List.getD_eq_getElem?_getD, List.getElem?_map, List.getElem?_range h]
  rfl

/-- C7 counterexample: on a 1×1 grid whose only pixel is `(1, 2, 3)` with
alpha 128, the mask for color key `(1, 2, 3)` copies the original pixel,
alpha included — the mask pixel's alpha is 128, not full opacity (255).
This refutes "every pixel of that Color Key retains full opacity in the
mask". -/
theorem c7_full_opacity_counterexample :
    (1, 2, 3) ∈ uniqueColors gAlpha ∧
    0 < (pixN gAlpha 0 0).a.val ∧ (pixN gAlpha 0 0).rgb = (1, 2, 3) ∧
    (pixN (maskFor gAlpha (1, 2, 3)) 0 0).a.val = 128 ∧
    ¬ (pixN (maskFor gAlpha (1, 2, 3)) 0 0).a.val = 255 := by
  decide

/-- C7 (amended): for every rectangular grid and every distinct Color Key
appearing in it, the mask raster produced by `array_to_pngs` has the same
pixel dimensions as the input and is fully transparent (`(0,0,0,0)`) at
every coordinate whose pixel is not an opaque (`alpha > 0`) pixel of that
Color Key, while every pixel of that Color Key retains its original RGBA
value — in particular its original (not necessarily full) opacity. -/
theorem c7_masks (g : List (List RGBA)) (hrect : Rectangular g)
    (c : Byte × Byte × Byte) (hc : c ∈ uniqueColors g) :
    heightOf (maskFor g c) = heightOf g ∧
    (maskFor g c).map List.length = g.map List.length ∧
    (∀ x y : ℕ, x < widthOf g → y < heightOf g →
      (¬ (0 < (pixN g x y).a.val ∧ (pixN g x y).rgb = c) →
        pixN (maskFor g c) x y = ⟨0, 0, 0, 0⟩) ∧
      ((0 < (pixN g x y).a.val ∧ (pixN g x y).rgb = c) →
        pixN (maskFor g c) x y = pixN g x y)) := by
  refine ⟨by simp [maskFor, heightOf], ?_, ?_⟩
  · have h1 : (maskFor g c).map List.length = List.replicate (heightOf g) (widthOf g) := by
      rw [List.eq_replicate_iff]
      constructor
      · simp [maskFor]
      · intro b hb
        rw [List.mem_map] at hb
        obtain ⟨row, hrow, hlen⟩ := hb
        rw [maskFor, List.mem_map] at hrow
        obtain ⟨y, _, hy⟩ := hrow
        rw [← hy] at hlen
        simpa using hlen.symm
    have h2 : g.map List.length = List.replicate (heightOf g) (widthOf g) := by
      rw [List.eq_replicate_iff]
      constructor
      · simp [heightOf]
      · intro b hb
        rw [List.mem_map] at hb
        obtain ⟨row, hrow, hlen⟩ := hb
        rw [← hlen]
        exact hrect row hrow
    rw [h1, h2]
  · intro x y hx hy
    have hrow : pixN (maskFor g c) x y =
        (let p := pixN g x y; if 0 < p.a.val ∧ p.rgb = c then p else ⟨0, 0, 0, 0⟩) := by
      rw [pixN, maskFor, getD_range_map _ _ _ _ hy, getD_range_map _ _ _ _ hx]
      rfl
    constructor
    · intro hno
      rw [hrow]
      simp only []
      rw [if_neg hno]
    · intro hyes
      rw [hrow]
      simp only []
      rw [if_pos hyes]

/-- Witness for C7 (amended) on the 1×2 mixed grid. -/
theorem c7_masks_witness :
    Rectangular gMix ∧ (5, 6, 7) ∈ uniqueColors gMix ∧
    (heightOf (maskFor gMix (5, 6, 7)) = heightOf gMix ∧
     (maskFor gMix (5, 6, 7)).map List.length = gMix.map List.length ∧
     (∀ x y : ℕ, x < widthOf gMix → y < heightOf gMix →
       (¬ (0 < (pixN gMix x y).a.val ∧ (pixN gMix x y).rgb = (5, 6, 7)) →
         pixN (maskFor gMix (5, 6, 7)) x y = ⟨0, 0, 0, 0⟩) ∧
       ((0 < (pixN gMix x y).a.val ∧ (pixN gMix x y).rgb = (5, 6, 7)) →
         pixN (maskFor gMix (5, 6, 7)) x y = pixN gMix x y))) :=
  ⟨by decide, by decide, c7_masks gMix (by decide) (5, 6, 7) (by decide)⟩

/-! ## Hex encoding round trip and the nearest-palette lookup (claim C5) -/

set_option maxRecDepth 4000 in
theorem pyIntHex_byteHex : ∀ b : Byte, pyIntHex (byteHex b) = b.val := by decide

theorem rgb_to_hex_toList (t : Byte × Byte × Byte) :
    (rgb_to_hex t).toList = byteHex t.1 ++ byteHex t.2.1 ++ byteHex t.2.2 := rfl

theorem rgb_to_hex_take_drop (t : Byte × Byte × Byte) :
    (rgb_to_hex t).toList.take 2 = byteHex t.1 ∧
    ((rgb_to_hex t).toList.drop 2).take 2 = byteHex t.2.1 ∧
    (rgb_to_hex t).toList.drop 4 = byteHex t.2.2 := by
  rw [rgb_to_hex_toList]
  refine ⟨?_, ?_, ?_⟩
  · rw [List.append_assoc]
    exact List.take_left' rfl
  · rw [List.append_assoc, List.drop_left' (by rfl)]
    exact List.take_left' rfl
  · exact List.drop_left' (by rfl)

theorem rgb_to_hex_injective : Function.Injective rgb_to_hex := by
  intro t t' h
  have h1 := (rgb_to_hex_take_drop t).1
  have h2 := (rgb_to_hex_take_drop t).2.1
  have h3 := (rgb_to_hex_take_drop t).2.2
  rw [h] at h1 h2 h3
  have e1 : byteHex t'.1 = byteHex t.1 := by rw [← h1, (rgb_to_hex_take_drop t').1]
  have e2 : byteHex t'.2.1 = byteHex t.2.1 := by rw [← h2, (rgb_to_hex_take_drop t').2.1]
  have e3 : byteHex t'.2.2 = byteHex t.2.2 := by rw [← h3, (rgb_to_hex_take_drop t').2.2]
  have v1 := congrArg pyIntHex e1
  have v2 := congrArg pyIntHex e2
  have v3 := congrArg pyIntHex e3
  rw [pyIntHex_byteHex, pyIntHex_byteHex] at v1 v2 v3
  obtain ⟨a, b, c⟩ := t
  obtain ⟨a', b', c'⟩ := t'
  simp only [Prod.mk.injEq]
  exact ⟨Fin.val_injective v1.symm, Fin.val_injective v2.symm, Fin.val_injective v3.symm⟩

/-- `find_closest_aci` applied to the hex string of a byte triple reduces to
the Python `min` over the squared RGB distance to that triple. -/
theorem find_closest_aci_rgb (table : AciTable) (t : Byte × Byte × Byte) :
    find_closest_aci table (rgb_to_hex t) =
      (pyMinBy (fun e => aciDist t.1.val t.2.1.val t.2.2.val e.2) table).map (·.1) := by
  rw [find_closest_aci]
  rw [(rgb_to_hex_take_drop t).1, (rgb_to_hex_take_drop t).2.1, (rgb_to_hex_take_drop t).2.2]
  rw [pyIntHex_byteHex, pyIntHex_byteHex, pyIntHex_byteHex]

/-- Python's `min(·, key=k)` returns the first element attaining the
minimal key: it sits at an index before which every element has a strictly
larger key. -/
theorem pyMinBy_spec (k : α → ℤ) (x : α) (xs : List α) :
    ∃ (n : ℕ) (e : α), (x :: xs)[n]? = some e ∧ pyMinBy k (x :: xs) = some e ∧
      (∀ y ∈ x :: xs, k e ≤ k y) ∧
      (∀ j, j < n → ∀ z, (x :: xs)[j]? = some z → k e < k z) := by
  induction xs generalizing x with
  | nil =>
      refine ⟨0, x, rfl, rfl, ?_, ?_⟩
      · intro y hy
        rw [List.mem_singleton] at hy
        rw [hy]
      · intro j hj
        omega
  | cons y ys ih =>
      have hfold : pyMinBy k (x :: y :: ys) = pyMinBy k ((if k y < k x then y else x) :: ys) := rfl
      by_cases hxy : k y < k x
      · obtain ⟨n, e, hget, hmin, hle, hfirst⟩ := ih y
        refine ⟨n + 1, e, ?_, ?_, ?_, ?_⟩
        · simpa using hget
        · rw [hfold, if_pos hxy]
          exact hmin
        · intro z hz
          rcases List.mem_cons.mp hz with hz | hz
          · subst hz
            have := hle y (List.mem_cons_self _ _)
            omega
          · exact hle z hz
        · intro j hj z hz
          cases j with
          | zero =>
              simp only [List.getElem?_cons_zero, Option.some.injEq] at hz
              subst hz
              have := hle y (List.mem_cons_self _ _)
              omega
          | succ j' =>
              rw [List.getElem?_cons_succ] at hz
              exact hfirst j' (by omega) z hz
      · obtain ⟨n, e, hget, hmin, hle, hfirst⟩ := ih x
        cases n with
        | zero =>
            simp only [List.getElem?_cons_zero, Option.some.injEq] at hget
            subst hget
            refine ⟨0, x, List.getElem?_cons_zero, ?_, ?_, ?_⟩
            · rw [hfold, if_neg hxy]
              exact hmin
            · intro z hz
              rcases List.mem_cons.mp hz with hz | hz
              · subst hz
                exact le_refl _
              · rcases List.mem_cons.mp hz with hz | hz
                · subst hz
                  omega
                · exact hle z (List.mem_cons_of_mem _ hz)
            · intro j hj
              omega
        | succ n' =>
            rw [List.getElem?_cons_succ] at hget
            have hex : k e < k x := by
              refine hfirst 0 (by omega) x List.getElem?_cons_zero
            refine ⟨n' + 2, e, ?_, ?_, ?_, ?_⟩
            · rw [List.getElem?_cons_succ, List.getElem?_cons_succ]
              exact hget
            · rw [hfold, if_neg hxy]
              exact hmin
            · intro z hz
              rcases List.mem_cons.mp hz with hz | hz
              · subst hz
                omega
              · rcases List.mem_cons.mp hz with hz | hz
                · subst hz
                  omega
                · exact hle z (List.mem_cons_of_mem _ hz)
            · intro j hj z hz
              cases j with
              | zero =>
                  simp only [List.getElem?_cons_zero, Option.some.injEq] at hz
                  subst hz
                  omega
              | succ j' =>
                  rw [List.getElem?_cons_succ] at hz
                  cases j' with
                  | zero =>
                      simp only [List.getElem?_cons_zero, Option.some.injEq] at hz
                      subst hz
                      omega
                  | succ j'' =>
                      rw [List.getElem?_cons_succ] at hz
                      have hz' : (x :: ys)[j'' + 1]? = some z := by
                        rw [List.getElem?_cons_succ]
                        exact hz
                      exact hfirst (j'' + 1) (by omega) z hz'

theorem mem_of_getElem?_eq {α : Type} {l : List α} {n : ℕ} {a : α}
    (h : l[n]? = some a) : a ∈ l := by
  induction l generalizing n with
  | nil => simp at h
  | cons x t ih =>
      cases n with
      | zero =>
          simp only [List.getElem?_cons_zero, Option.some.injEq] at h
          rw [← h]
          exact List.mem_cons_self _ _
      | succ n' =>
          rw [List.getElem?_cons_succ] at h
          exact List.mem_cons_of_mem _ (ih h)

theorem aciDist_nonneg (r g b : ℕ) (e : ℕ × ℕ × ℕ) : 0 ≤ aciDist r g b e := by
  rw [aciDist]
  positivity

theorem aciDist_self (r g b : ℕ) : aciDist r g b (r, g, b) = 0 := by
  simp [aciDist]

theorem aciDist_eq_zero {r g b : ℕ} {e : ℕ × ℕ × ℕ} (h : aciDist r g b e = 0) :
    e = (r, g, b) := by
  rw [aciDist] at h
  have h1 : ((r : ℤ) - e.1) ^ 2 = 0 := by
    nlinarith [sq_nonneg ((r : ℤ) - e.1), sq_nonneg ((g : ℤ) - e.2.1),
      sq_nonneg ((b : ℤ) - e.2.2)]
  have h2 : ((g : ℤ) - e.2.1) ^ 2 = 0 := by
    nlinarith [sq_nonneg ((r : ℤ) - e.1), sq_nonneg ((g : ℤ) - e.2.1),
      sq_nonneg ((b : ℤ) - e.2.2)]
  have h3 : ((b : ℤ) - e.2.2) ^ 2 = 0 := by
    nlinarith [sq_nonneg ((r : ℤ) - e.1), sq_nonneg ((g : ℤ) - e.2.1),
      sq_nonneg ((b : ℤ) - e.2.2)]
  rw [sq_eq_zero_iff, sub_eq_zero] at h1 h2 h3
  have e1 : e.1 = r := by exact_mod_cast h1.symm
  have e2 : e.2.1 = g := by exact_mod_cast h2.symm
  have e3 : e.2.2 = b := by exact_mod_cast h3.symm
  obtain ⟨a, bb, c⟩ := e
  simp_all

/-- C5: `find_closest_aci` is a pure function of its RGB input and the
palette table (`aci_table.py` is not among the sources; the table is an
arbitrary parameter in the dict's insertion order): it returns the index of
a palette entry minimizing the squared Euclidean RGB distance, the tie
going to the first minimal entry in insertion order; and when the input RGB
exactly equals some palette entry's RGB and no other entry shares that RGB,
that exact entry's index is returned. -/
theorem c5_find_closest_aci (table : AciTable) (hne : table ≠ []) (r g b : Byte) :
    (∃ (n : ℕ) (e : ℕ × ℕ × ℕ × ℕ), table[n]? = some e ∧
      find_closest_aci table (rgb_to_hex (r, g, b)) = some e.1 ∧
      (∀ e' ∈ table, aciDist r.val g.val b.val e.2 ≤ aciDist r.val g.val b.val e'.2) ∧
      (∀ j, j < n → ∀ e', table[j]? = some e' →
        aciDist r.val g.val b.val e.2 < aciDist r.val g.val b.val e'.2)) ∧
    (∀ (i : ℕ) (e₀ : ℕ × ℕ × ℕ × ℕ), table[i]? = some e₀ →
      e₀.2 = (r.val, g.val, b.val) →
      (∀ (j : ℕ) (e' : ℕ × ℕ × ℕ × ℕ), table[j]? = some e' → e'.2 = e₀.2 → j = i) →
      find_closest_aci table (rgb_to_hex (r, g, b)) = some e₀.1) := by
  obtain ⟨x, xs, rfl⟩ : ∃ x xs, table = x :: xs := by
    cases table with
    | nil => exact absurd rfl hne
    | cons x xs => exact ⟨x, xs, rfl⟩
  obtain ⟨n, e, hget, hmin, hle, hfirst⟩ :=
    pyMinBy_spec (fun e => aciDist r.val g.val b.val e.2) x xs
  have hres : find_closest_aci (x :: xs) (rgb_to_hex (r, g, b)) = some e.1 := by
    rw [find_closest_aci_rgb, hmin]
    rfl
  refine ⟨⟨n, e, hget, hres, hle, hfirst⟩, ?_⟩
  intro i e₀ hi he₀ huniq
  have hmem : e₀ ∈ x :: xs := mem_of_getElem?_eq hi
  have hzero : aciDist r.val g.val b.val e₀.2 = 0 := by
    rw [he₀]
    exact aciDist_self _ _ _
  have hle0 : aciDist r.val g.val b.val e.2 ≤ 0 := hzero ▸ hle e₀ hmem
  have heq0 : aciDist r.val g.val b.val e.2 = 0 :=
    le_antisymm hle0 (aciDist_nonneg _ _ _ _)
  have hesame : e.2 = e₀.2 := by
    rw [aciDist_eq_zero heq0, he₀]
  have hni : n = i := huniq n e hget hesame
  rw [hni] at hget
  rw [hi] at hget
  obtain rfl : e = e₀ := by
    injection hget with h
    exact h.symm
  exact hres

/-- Witness for C5 on a concrete two-entry table at an exactly matching
input. -/
theorem c5_find_closest_aci_witness :
    ([(1, (255, 0, 0)), (3, (0, 255, 0))] : AciTable) ≠ [] ∧
    ((∃ (n : ℕ) (e : ℕ × ℕ × ℕ × ℕ),
        ([(1, (255, 0, 0)), (3, (0, 255, 0))] : AciTable)[n]? = some e ∧
        find_closest_aci [(1, (255, 0, 0)), (3, (0, 255, 0))]
          (rgb_to_hex ((255 : Byte), (0 : Byte), (0 : Byte))) = some e.1 ∧
        (∀ e' ∈ ([(1, (255, 0, 0)), (3, (0, 255, 0))] : AciTable),
          aciDist (255 : Byte).val (0 : Byte).val (0 : Byte).val e.2 ≤
            aciDist (255 : Byte).val (0 : Byte).val (0 : Byte).val e'.2) ∧
        (∀ j, j < n → ∀ e',
          ([(1, (255, 0, 0)), (3, (0, 255, 0))] : AciTable)[j]? = some e' →
          aciDist (255 : Byte).val (0 : Byte).val (0 : Byte).val e.2 <
            aciDist (255 : Byte).val (0 : Byte).val (0 : Byte).val e'.2)) ∧
      (∀ (i : ℕ) (e₀ : ℕ × ℕ × ℕ × ℕ),
        ([(1, (255, 0, 0)), (3, (0, 255, 0))] : AciTable)[i]? = some e₀ →
        e₀.2 = ((255 : Byte).val, (0 : Byte).val, (0 : Byte).val) →
        (∀ (j : ℕ) (e' : ℕ × ℕ × ℕ × ℕ),
          ([(1, (255, 0, 0)), (3, (0, 255, 0))] : AciTable)[j]? = some e' →
          e'.2 = e₀.2 → j = i) →
        find_closest_aci [(1, (255, 0, 0)), (3, (0, 255, 0))]
          (rgb_to_hex ((255 : Byte), (0 : Byte), (0 : Byte))) = some e₀.1)) :=
  ⟨by decide, c5_find_closest_aci [(1, (255, 0, 0)), (3, (0, 255, 0))] (by decide) 255 0 0⟩

/-! ## Boundary segment counting (claim C2) -/

theorem segsForPixel_length (region : List Coord) (ps : ℚ) (L : String) (p : Coord) :
    (segsForPixel region ps L p).length = sideCount region p := by
  rw [segsForPixel, sideCount]
  split_ifs <;> simp

/-- C2: For every region produced by the segmenter, the number of unit
boundary segments emitted for it by `draw_region_outlines` equals the sum,
over the region's member pixels, of the number of that pixel's four sides
whose 4-neighbor coordinate is not a member of the same region; a pixel
with all four neighbors in the region contributes zero segments, and a
region consisting of one isolated pixel contributes exactly four. -/
theorem c2_boundary_segment_count (g : HexGrid) (region : List Coord)
    (hreg : region ∈ allRegions (find_connected_regions g)) (ps : ℚ) (L : String) :
    (outlineSegments region ps L).length = (region.map (sideCount region)).sum ∧
    (∀ p ∈ region, (p.1 - 1, p.2) ∈ region → (p.1 + 1, p.2) ∈ region →
      (p.1, p.2 - 1) ∈ region → (p.1, p.2 + 1) ∈ region →
      segsForPixel region ps L p = []) ∧
    (∀ x y : ℤ, region = [(x, y)] → (outlineSegments region ps L).length = 4) := by
  refine ⟨?_, ?_, ?_⟩
  · rw [outlineSegments, List.length_flatMap]
    congr 1
    apply List.map_congr_left
    intro p _
    exact segsForPixel_length region ps L p
  · intro p hp h1 h2 h3 h4
    cases p with
    | mk x y =>
        rw [segsForPixel]
        simp only [not_not] at *
        rw [if_neg (by simpa using h1), if_neg (by simpa using h2),
          if_neg (by simpa using h3), if_neg (by simpa using h4)]
        rfl
  · intro x y hxy
    subst hxy
    have h1 : ((x - 1, y) : Coord) ∉ [((x, y) : Coord)] := by
      simp only [List.mem_singleton, Prod.mk.injEq, not_and]
      intro hx
      omega
    have h2 : ((x + 1, y) : Coord) ∉ [((x, y) : Coord)] := by
      simp only [List.mem_singleton, Prod.mk.injEq, not_and]
      intro hx
      omega
    have h3 : ((x, y - 1) : Coord) ∉ [((x, y) : Coord)] := by
      simp only [List.mem_singleton, Prod.mk.injEq]
      intro hx
      omega
    have h4 : ((x, y + 1) : Coord) ∉ [((x, y) : Coord)] := by
      simp only [List.mem_singleton, Prod.mk.injEq]
      intro hx
      omega
    rw [outlineSegments]
    show (segsForPixel [(x, y)] ps L (x, y) ++ []).length = 4
    rw [List.append_nil, segsForPixel]
    rw [if_pos h1, if_pos h2, if_pos h3, if_pos h4]
    rfl

/-! ## Flood fill invariants (towards claims C1 and C3) -/

/-- The flood fill only adds cells: whatever the loop marks extends the
incoming visited set by exactly the cells appended to the region, which are
fresh, pairwise distinct, in bounds and of the region's color. -/
theorem explore_spec (g : HexGrid) (c : String) (stack : List Coord) (v : Finset Coord)
    (acc : List Coord) :
    ∃ δ : List Coord,
      (explore g c stack v acc).1 = acc ++ δ ∧
      (explore g c stack v acc).2 = v ∪ δ.toFinset ∧
      (∀ p ∈ δ, p ∉ v) ∧ δ.Nodup ∧
      (∀ p ∈ δ, p ∈ boundsF g ∧ cellD g p.1 p.2 = some c) := by
  induction stack, v, acc using explore.induct g c with
  | case1 v acc =>
      refine ⟨[], ?_, ?_, ?_, ?_, ?_⟩ <;> simp [explore]
  | case2 cx cy rest v acc h ih =>
      rw [explore, if_pos h]
      exact ih
  | case3 cx cy rest v acc h ih =>
      rw [explore, if_neg h]
      obtain ⟨δ, h1, h2, h3, h4, h5⟩ := ih
      push_neg at h
      obtain ⟨hb, hnv, hcell⟩ := h
      refine ⟨(cx, cy) :: δ, ?_, ?_, ?_, ?_, ?_⟩
      · rw [h1]
        simp
      · rw [h2, List.toFinset_cons]
        ext q
        simp only [Finset.mem_union, Finset.mem_insert, List.mem_toFinset]
        tauto
      · intro p hp
        rcases List.mem_cons.mp hp with hp | hp
        · subst hp
          exact hnv
        · exact fun hpv => h3 p hp (Finset.mem_insert_of_mem hpv)
      · refine List.nodup_cons.mpr ⟨?_, h4⟩
        intro hmem
        exact h3 (cx, cy) hmem (Finset.mem_insert_self _ _)
      · intro p hp
        rcases List.mem_cons.mp hp with hp | hp
        · subst hp
          exact ⟨mem_boundsF.mpr hb, hcell⟩
        · exact h5 p hp

theorem explore_visited_mono (g : HexGrid) (c : String) (stack : List Coord)
    (v : Finset Coord) (acc : List Coord) : v ⊆ (explore g c stack v acc).2 := by
  obtain ⟨δ, _, h2, _, _, _⟩ := explore_spec g c stack v acc
  rw [h2]
  exact Finset.subset_union_left

/-- Every stack entry that is in bounds and of the fill color ends up
visited when the loop returns. -/
theorem explore_absorbs (g : HexGrid) (c : String) (stack : List Coord)
    (v : Finset Coord) (acc : List Coord) :
    ∀ q ∈ stack, q ∈ boundsF g → cellD g q.1 q.2 = some c →
      q ∈ (explore g c stack v acc).2 := by
  induction stack, v, acc using explore.induct g c with
  | case1 v acc =>
      intro q hq
      simp at hq
  | case2 cx cy rest v acc h ih =>
      intro q hq hb hcell
      rw [explore, if_pos h]
      rcases List.mem_cons.mp hq with hq | hq
      · subst hq
        rcases h with h | h | h
        · exact absurd (mem_boundsF.mp hb) h
        · exact explore_visited_mono g c rest v acc h
        · exact absurd hcell h
      · exact ih q hq hb hcell
  | case3 cx cy rest v acc h ih =>
      intro q hq hb hcell
      rw [explore, if_neg h]
      rcases List.mem_cons.mp hq with hq | hq
      · subst hq
        exact explore_visited_mono g c _ _ _ (Finset.mem_insert_self _ _)
      · exact ih q (by simp [hq]) hb hcell

/-- Any cell freshly visited by the loop has all its in-bounds same-colored
4-neighbors visited when the loop returns. -/
theorem explore_closure (g : HexGrid) (c : String) (stack : List Coord)
    (v : Finset Coord) (acc : List Coord) :
    ∀ p, p ∈ (explore g c stack v acc).2 → p ∉ v →
      ∀ d ∈ dirs, nbr p d ∈ boundsF g → cellD g (nbr p d).1 (nbr p d).2 = some c →
        nbr p d ∈ (explore g c stack v acc).2 := by
  induction stack, v, acc using explore.induct g c with
  | case1 v acc =>
      intro p hp hpv
      rw [explore] at hp
      exact absurd hp hpv
  | case2 cx cy rest v acc h ih =>
      rw [explore, if_pos h]
      exact ih
  | case3 cx cy rest v acc h ih =>
      rw [explore, if_neg h]
      intro p hp hpv d hd hb hcell
      by_cases hpe : p = (cx, cy)
      · subst hpe
        refine explore_absorbs g c _ _ _ (nbr (cx, cy) d) ?_ hb hcell
        rcases List.mem_cons.mp hd with hd | hd
        · rw [hd]
          simp [nbr, sub_eq_add_neg]
        · rcases List.mem_cons.mp hd with hd | hd
          · rw [hd]
            simp [nbr, sub_eq_add_neg]
          · rcases List.mem_cons.mp hd with hd | hd
            · rw [hd]
              simp [nbr, sub_eq_add_neg]
            · rcases List.mem_cons.mp hd with hd | hd
              · rw [hd]
                simp [nbr, sub_eq_add_neg]
              · simp at hd
      · refine ih p hp ?_ d hd hb hcell
        intro hmem
        rcases Finset.mem_insert.mp hmem with hmem | hmem
        · exact hpe hmem
        · exact hpv hmem

theorem allRegions_cons (e : String × List (List Coord)) (t : RegionsMap) :
    allRegions (e :: t) = e.2 ++ allRegions t := rfl

theorem allRegions_append (m m' : RegionsMap) :
    allRegions (m ++ m') = allRegions m ++ allRegions m' := by
  simp [allRegions]

theorem mem_allRegions {m : RegionsMap} {r : List Coord} :
    r ∈ allRegions m ↔ ∃ e ∈ m, r ∈ e.2 := by
  simp [allRegions]

theorem allRegions_setdefault_map (m : RegionsMap) (c : String) (r : List Coord)
    (hk : (m.map Prod.fst).Nodup) (hmem : m.any (fun e => e.1 == c) = true) :
    (allRegions (m.map (fun e => if e.1 == c then (e.1, e.2 ++ [r]) else e))).Perm
      (allRegions m ++ [r]) := by
  induction m with
  | nil => simp at hmem
  | cons x t ih =>
      rw [List.map_cons, List.nodup_cons] at hk
      by_cases hx : (x.1 == c) = true
      · have hxc : x.1 = c := by
          exact eq_of_beq hx
        have ht : t.map (fun e => if e.1 == c then (e.1, e.2 ++ [r]) else e) = t := by
          have hcong : ∀ e ∈ t, (if e.1 == c then (e.1, e.2 ++ [r]) else e) = id e := by
            intro e he
            have hne : e.1 ≠ c := by
              intro hec
              exact hk.1 (by
                rw [← hxc] at hec
                exact List.mem_map.mpr ⟨e, he, hec⟩)
            rw [if_neg (by simpa using hne)]
            rfl
          rw [List.map_congr_left hcong, List.map_id]
        rw [List.map_cons, if_pos hx, ht, allRegions_cons, allRegions_cons]
        rw [List.append_assoc, List.append_assoc]
        exact List.Perm.append_left x.2 (List.perm_append_comm)
      · have htany : t.any (fun e => e.1 == c) = true := by
          rcases List.any_eq_true.mp hmem with ⟨e, he, hec⟩
          rcases List.mem_cons.mp he with he | he
          · rw [← he] at hx
            exact absurd hec hx
          · exact List.any_eq_true.mpr ⟨e, he, hec⟩
        rw [List.map_cons, if_neg hx, allRegions_cons, allRegions_cons]
        rw [List.append_assoc]
        exact List.Perm.append_left x.2 (ih hk.2 htany)

theorem allRegions_setdefaultAppend (m : RegionsMap) (c : String) (r : List Coord)
    (hk : (m.map Prod.fst).Nodup) :
    (allRegions (setdefaultAppend m c r)).Perm (allRegions m ++ [r]) := by
  rw [setdefaultAppend]
  by_cases hany : m.any (fun e => e.1 == c) = true
  · rw [if_pos hany]
    exact allRegions_setdefault_map m c r hk hany
  · rw [if_neg hany, allRegions_append]
    exact List.Perm.refl _

theorem setdefault_keys (m : RegionsMap) (c : String) (r : List Coord)
    (hk : (m.map Prod.fst).Nodup) :
    ((setdefaultAppend m c r).map Prod.fst).Nodup := by
  rw [setdefaultAppend]
  by_cases hany : m.any (fun e => e.1 == c) = true
  · rw [if_pos hany]
    have : (m.map (fun e => if e.1 == c then (e.1, e.2 ++ [r]) else e)).map Prod.fst =
        m.map Prod.fst := by
      rw [List.map_map]
      apply List.map_congr_left
      intro e _
      show Prod.fst (if (e.1 == c) = true then (e.1, e.2 ++ [r]) else e) = e.1
      split <;> rfl
    rw [this]
    exact hk
  · rw [if_neg hany, List.map_append]
    rw [List.nodup_append]
    refine ⟨hk, by simp, ?_⟩
    intro k hkm
    simp only [List.map_cons, List.map_nil, List.mem_singleton]
    intro hkc
    apply hany
    rcases List.mem_map.mp hkm with ⟨e, he, hek⟩
    exact List.any_eq_true.mpr ⟨e, he, by
      rw [hkc] at hek
      exact beq_iff_eq.mpr hek⟩

theorem setdefault_mem {m : RegionsMap} {c : String} {r : List Coord}
    {e' : String × List (List Coord)} (he : e' ∈ setdefaultAppend m c r) :
    e' ∈ m ∨ (∃ e ∈ m, e.1 = c ∧ e' = (e.1, e.2 ++ [r])) ∨ e' = (c, [r]) := by
  rw [setdefaultAppend] at he
  by_cases hany : m.any (fun e => e.1 == c) = true
  · rw [if_pos hany] at he
    rcases List.mem_map.mp he with ⟨e, hem, hee⟩
    by_cases hec : (e.1 == c) = true
    · rw [if_pos hec] at hee
      exact Or.inr (Or.inl ⟨e, hem, eq_of_beq hec, hee.symm⟩)
    · rw [if_neg hec] at hee
      exact Or.inl (hee ▸ hem)
  · rw [if_neg hany] at he
    rcases List.mem_append.mp he with he | he
    · exact Or.inl he
    · exact Or.inr (Or.inr (List.mem_singleton.mp he))

theorem dirs_neg {d : Coord} (hd : d ∈ dirs) : ((-d.1, -d.2) : Coord) ∈ dirs := by
  rcases List.mem_cons.mp hd with h | h
  · rw [h]
    decide
  · rcases List.mem_cons.mp h with h | h
    · rw [h]
      decide
    · rcases List.mem_cons.mp h with h | h
      · rw [h]
        decide
      · rcases List.mem_cons.mp h with h | h
        · rw [h]
          decide
        · simp at h

theorem nbr_nbr_neg (q d : Coord) : nbr (nbr q d) (-d.1, -d.2) = q := by
  cases q with
  | mk a b =>
      cases d with
      | mk u v =>
          simp [nbr]

theorem SegInv.mem_iff {g : HexGrid} {v : Finset Coord} {m : RegionsMap}
    (h : SegInv g v m) (p : Coord) :
    p ∈ v ↔ ∃ r ∈ allRegions m, p ∈ r := by
  constructor
  · intro hp
    have := h.count p
    rw [if_pos hp] at this
    have hpos : 0 < (allRegions m).countP (fun r => decide (p ∈ r)) := by omega
    rcases List.countP_pos.mp hpos with ⟨r, hr, hpr⟩
    exact ⟨r, hr, of_decide_eq_true hpr⟩
  · intro ⟨r, hr, hpr⟩
    by_contra hp
    have := h.count p
    rw [if_neg hp] at this
    have hpos : 0 < (allRegions m).countP (fun r => decide (p ∈ r)) :=
      List.countP_pos.mpr ⟨r, hr, decide_eq_true hpr⟩
    omega

/-- One scan step preserves the segmentation invariant, never unmarks a
cell, and leaves the scanned coordinate visited whenever it is opaque. -/
theorem fcrStep_preserves (g : HexGrid) (st : Finset Coord × RegionsMap) (p : Coord)
    (h : SegInv g st.1 st.2) (hpb : p ∈ boundsF g) :
    SegInv g (fcrStep g st p).1 (fcrStep g st p).2 ∧
    st.1 ⊆ (fcrStep g st p).1 ∧
    (cellD g p.1 p.2 ≠ none → p ∈ (fcrStep g st p).1) := by
  by_cases hv : p ∈ st.1
  · have hstep : fcrStep g st p = st := by
      rw [fcrStep, if_pos hv]
    rw [hstep]
    exact ⟨h, Finset.Subset.refl _, fun _ => hv⟩
  · cases hcell : cellD g p.1 p.2 with
    | none =>
        have hstep : fcrStep g st p = st := by
          rw [fcrStep, if_neg hv, hcell]
        rw [hstep]
        exact ⟨h, Finset.Subset.refl _, fun hne => absurd rfl hne⟩
    | some c =>
        obtain ⟨δ, h1, h2, h3, h4, h5⟩ := explore_spec g c [p] st.1 []
        rw [List.nil_append] at h1
        have hpmem : p ∈ (explore g c [p] st.1 []).2 :=
          explore_absorbs g c [p] st.1 [] p (List.mem_singleton_self p) hpb hcell
        have hpδ : p ∈ δ := by
          rw [h2] at hpmem
          rcases Finset.mem_union.mp hpmem with hh | hh
          · exact absurd hh hv
          · exact List.mem_toFinset.mp hh
        have hδne : (explore g c [p] st.1 []).1 ≠ [] := by
          rw [h1]
          intro hnil
          rw [hnil] at hpδ
          simp at hpδ
        have hstep : fcrStep g st p = (st.1 ∪ δ.toFinset, setdefaultAppend st.2 c δ) := by
          rw [fcrStep, if_neg hv, hcell]
          show (if (explore g c [p] st.1 []).1 ≠ [] then
              ((explore g c [p] st.1 []).2, setdefaultAppend st.2 c (explore g c [p] st.1 []).1)
            else ((explore g c [p] st.1 []).2, st.2)) =
            (st.1 ∪ δ.toFinset, setdefaultAppend st.2 c δ)
          rw [if_pos hδne]
          rw [h1]
          rw [h2]
        rw [hstep]
        have hδbounds : ∀ q ∈ δ, q ∈ boundsF g := fun q hq => (h5 q hq).1
        have hδcell : ∀ q ∈ δ, cellD g q.1 q.2 = some c := fun q hq => (h5 q hq).2
        have hclose : ∀ q ∈ δ, ∀ d ∈ dirs, nbr q d ∈ boundsF g →
            cellD g (nbr q d).1 (nbr q d).2 = some c → nbr q d ∈ δ := by
          intro q hq d hd hb hc2
          have hq2 : q ∈ (explore g c [p] st.1 []).2 := by
            rw [h2]
            exact Finset.mem_union_right _ (List.mem_toFinset.mpr hq)
          have hnb := explore_closure g c [p] st.1 [] q hq2 (h3 q hq) d hd hb hc2
          rw [h2] at hnb
          rcases Finset.mem_union.mp hnb with hh | hh
          · exfalso
            rcases (h.mem_iff (nbr q d)).mp hh with ⟨r₀, hr₀, hnr₀⟩
            rcases mem_allRegions.mp hr₀ with ⟨e₀, he₀, hre₀⟩
            have hcol := h.colors e₀ he₀ r₀ hre₀ (nbr q d) hnr₀
            have he₀c : e₀.1 = c := by
              have h6 := hcol.2.symm.trans hc2
              injection h6
            have hqb : q ∈ boundsF g := hδbounds q hq
            have hqc : cellD g q.1 q.2 = some e₀.1 := by
              rw [he₀c]
              exact hδcell q hq
            have h8 := h.closed e₀ he₀ r₀ hre₀ (nbr q d) hnr₀ ((-d.1, -d.2)) (dirs_neg hd)
              (by rw [nbr_nbr_neg]; exact hqb) (by rw [nbr_nbr_neg]; exact hqc)
            rw [nbr_nbr_neg] at h8
            have hqv : q ∈ st.1 := (h.mem_iff q).mpr ⟨r₀, hr₀, h8⟩
            exact h3 q hq hqv
          · exact List.mem_toFinset.mp hh
        refine ⟨⟨?_, ?_, ?_, ?_⟩, Finset.subset_union_left,
          fun _ => Finset.mem_union_right _ (List.mem_toFinset.mpr hpδ)⟩
        · exact setdefault_keys st.2 c δ h.keys
        · intro e' he' r hr q hq
          rcases setdefault_mem he' with hm | hm | hm
          · exact h.colors e' hm r hr q hq
          · obtain ⟨e, hem, hec, hee⟩ := hm
            subst hee
            rcases List.mem_append.mp hr with hr | hr
            · exact h.colors e hem r hr q hq
            · rw [List.mem_singleton] at hr
              subst hr
              refine ⟨hδbounds q hq, ?_⟩
              show cellD g q.1 q.2 = some e.1
              rw [hec]
              exact hδcell q hq
          · subst hm
            rw [List.mem_singleton] at hr
            subst hr
            exact ⟨hδbounds q hq, hδcell q hq⟩
        · intro q
          have hperm := allRegions_setdefaultAppend st.2 c δ h.keys
          rw [hperm.countP_eq, List.countP_append, h.count q]
          by_cases hq1 : q ∈ st.1
          · have hqδ : q ∉ δ := fun hh => h3 q hh hq1
            rw [if_pos hq1, if_pos (Finset.mem_union_left _ hq1)]
            have hz : List.countP (fun r => decide (q ∈ r)) [δ] = 0 := by
              simp [List.countP_cons, hqδ]
            rw [hz]
          · by_cases hq2 : q ∈ δ
            · rw [if_neg hq1,
                if_pos (Finset.mem_union_right _ (List.mem_toFinset.mpr hq2))]
              have ho : List.countP (fun r => decide (q ∈ r)) [δ] = 1 := by
                simp [List.countP_cons, hq2]
              rw [ho]
            · have hnu : q ∉ st.1 ∪ δ.toFinset := by
                intro hh
                rcases Finset.mem_union.mp hh with hh | hh
                · exact hq1 hh
                · exact hq2 (List.mem_toFinset.mp hh)
              rw [if_neg hq1, if_neg hnu]
              have hz : List.countP (fun r => decide (q ∈ r)) [δ] = 0 := by
                simp [List.countP_cons, hq2]
              rw [hz]
        · intro e' he' r hr q hq d hd hb hc2
          rcases setdefault_mem he' with hm | hm | hm
          · exact h.closed e' hm r hr q hq d hd hb hc2
          · obtain ⟨e, hem, hec, hee⟩ := hm
            subst hee
            rcases List.mem_append.mp hr with hr | hr
            · exact h.closed e hem r hr q hq d hd hb hc2
            · rw [List.mem_singleton] at hr
              subst hr
              apply hclose q hq d hd hb
              rw [hec] at hc2
              exact hc2
          · subst hm
            rw [List.mem_singleton] at hr
            subst hr
            exact hclose q hq d hd hb hc2

theorem SegInv_init (g : HexGrid) : SegInv g (∅ : Finset Coord) ([] : RegionsMap) := by
  refine ⟨by simp, by simp, ?_, by simp⟩
  intro p
  simp [allRegions]

theorem fcr_fold_inv (g : HexGrid) (l : List Coord) :
    ∀ st : Finset Coord × RegionsMap, (∀ q ∈ l, q ∈ boundsF g) → SegInv g st.1 st.2 →
      SegInv g (l.foldl (fcrStep g) st).1 (l.foldl (fcrStep g) st).2 ∧
      st.1 ⊆ (l.foldl (fcrStep g) st).1 ∧
      (∀ q ∈ l, cellD g q.1 q.2 ≠ none → q ∈ (l.foldl (fcrStep g) st).1) := by
  induction l with
  | nil =>
      intro st _ h
      exact ⟨h, Finset.Subset.refl _, by simp⟩
  | cons p t ih =>
      intro st hb h
      have hpb : p ∈ boundsF g := hb p (List.mem_cons_self _ _)
      obtain ⟨h1, h2, h3⟩ := fcrStep_preserves g st p h hpb
      have htb : ∀ q ∈ t, q ∈ boundsF g := fun q hq => hb q (List.mem_cons_of_mem _ hq)
      obtain ⟨h4, h5, h6⟩ := ih (fcrStep g st p) htb h1
      rw [List.foldl_cons]
      refine ⟨h4, subset_trans h2 h5, ?_⟩
      intro q hq hcell
      rcases List.mem_cons.mp hq with hq | hq
      · subst hq
        exact h5 (h3 hcell)
      · exact h6 q hq hcell

theorem mem_rowMajor {g : HexGrid} {q : Coord} : q ∈ rowMajor g ↔ q ∈ boundsF g := by
  cases q with
  | mk x y =>
      rw [mem_boundsF, rowMajor, List.mem_flatMap]
      constructor
      · rintro ⟨yn, hyn, hmem⟩
        rw [List.mem_range] at hyn
        obtain ⟨xn, hxn, heq⟩ := List.mem_map.mp hmem
        rw [List.mem_range] at hxn
        have hx : (xn : ℤ) = x := congrArg Prod.fst heq
        have hy : (yn : ℤ) = y := congrArg Prod.snd heq
        refine ⟨?_, ?_, ?_, ?_⟩ <;> omega
      · rintro ⟨hx0, hxw, hy0, hyh⟩
        refine ⟨y.toNat, ?_, ?_⟩
        · rw [List.mem_range]
          omega
        · refine List.mem_map.mpr ⟨x.toNat, ?_, ?_⟩
          · rw [List.mem_range]
            omega
          · rw [Prod.mk.injEq]
            constructor <;> omega

/-- The segmentation invariant holds of the final state of
`find_connected_regions`, and every in-bounds opaque cell is visited. -/
theorem fcr_inv (g : HexGrid) :
    SegInv g (fcrVisited g) (find_connected_regions g) ∧
    (∀ q ∈ boundsF g, cellD g q.1 q.2 ≠ none → q ∈ fcrVisited g) := by
  have hb : ∀ q ∈ rowMajor g, q ∈ boundsF g := fun q hq => mem_rowMajor.mp hq
  obtain ⟨h1, h2, h3⟩ := fcr_fold_inv g (rowMajor g) (∅, []) hb (SegInv_init g)
  exact ⟨h1, fun q hq hc => h3 q (mem_rowMajor.mpr hq) hc⟩

/-! ## From the RGBA grid to the hex grid (towards C1 and C3) -/

theorem heightOf_convert (g : List (List RGBA)) :
    heightOf (convert_array_to_hex g) = heightOf g := by
  simp [heightOf, convert_array_to_hex]

theorem widthOf_convert (g : List (List RGBA)) :
    widthOf (convert_array_to_hex g) = widthOf g := by
  cases g with
  | nil => rfl
  | cons row t => simp [widthOf, convert_array_to_hex]

theorem boundsF_convert (g : List (List RGBA)) :
    boundsF (convert_array_to_hex g) = boundsF g := by
  rw [boundsF, boundsF, widthOf_convert, heightOf_convert]

theorem getD_map_of_lt {α β : Type} (l : List α) (f : α → β) (i : ℕ) (d : β) (d' : α)
    (h : i < l.length) : (l.map f).getD i d = f (l.getD i d') := by
  induction l generalizing i with
  | nil => simp at h
  | cons x t ih =>
      cases i with
      | zero => rfl
      | succ i' =>
          simp only [List.map_cons, List.getD_cons_succ]
          exact ih i' (by simpa using h)

theorem getD_mem_of_lt {α : Type} (l : List α) (i : ℕ) (d : α) (h : i < l.length) :
    l.getD i d ∈ l := by
  induction l generalizing i with
  | nil => simp at h
  | cons x t ih =>
      cases i with
      | zero => exact List.mem_cons_self _ _
      | succ i' =>
          rw [List.getD_cons_succ]
          exact List.mem_cons_of_mem _ (ih i' (by simpa using h))

/-- On a rectangular grid, the hex cell of an in-bounds coordinate is the
hex string of its RGB part when opaque, `none` when fully transparent. -/
theorem cellD_convert (g : List (List RGBA)) (hrect : Rectangular g) (x y : ℤ)
    (hx0 : 0 ≤ x) (hxw : x < (widthOf g : ℤ)) (hy0 : 0 ≤ y) (hyh : y < (heightOf g : ℤ)) :
    cellD (convert_array_to_hex g) x y =
      (if 0 < (pixDZ g x y).a.val then some (rgb_to_hex (pixDZ g x y).rgb) else none) := by
  rw [cellD, pixDZ, convert_array_to_hex]
  have hyl : y.toNat < g.length := by
    rw [heightOf] at hyh
    omega
  rw [getD_map_of_lt g _ y.toNat [] [] hyl]
  have hrow : g.getD y.toNat [] ∈ g := getD_mem_of_lt g y.toNat [] hyl
  have hxl : x.toNat < (g.getD y.toNat []).length := by
    rw [hrect _ hrow]
    omega
  rw [getD_map_of_lt _ _ x.toNat none ⟨0, 0, 0, 0⟩ hxl]

/-- C1: For every rectangular RGBA grid, the region mapping produced by
`find_connected_regions` over the hex grid from `convert_array_to_hex`
covers and partitions the opaque pixels: every in-bounds pixel with
`alpha > 0` belongs to exactly one region, the union of all regions' pixel
sets equals the set of in-bounds pixels with `alpha > 0`, and no pixel with
`alpha = 0` appears in any region. -/
theorem c1_partition (g : List (List RGBA)) (hrect : Rectangular g) :
    (∀ p : Coord, p ∈ boundsF g → 0 < (pixDZ g p.1 p.2).a.val →
      (allRegions (find_connected_regions (convert_array_to_hex g))).countP
        (fun r => decide (p ∈ r)) = 1) ∧
    (∀ p : Coord,
      (∃ r ∈ allRegions (find_connected_regions (convert_array_to_hex g)), p ∈ r) ↔
      (p ∈ boundsF g ∧ 0 < (pixDZ g p.1 p.2).a.val)) ∧
    (∀ p : Coord, p ∈ boundsF g → (pixDZ g p.1 p.2).a.val = 0 →
      ∀ r ∈ allRegions (find_connected_regions (convert_array_to_hex g)), p ∉ r) := by
  obtain ⟨hinv, hcover⟩ := fcr_inv (convert_array_to_hex g)
  have hvis : ∀ p : Coord, p ∈ boundsF g → 0 < (pixDZ g p.1 p.2).a.val →
      p ∈ fcrVisited (convert_array_to_hex g) := by
    intro p hb ha
    obtain ⟨hb1, hb2, hb3, hb4⟩ := mem_boundsF.mp hb
    apply hcover p (by rw [boundsF_convert]; exact hb)
    rw [cellD_convert g hrect p.1 p.2 hb1 hb2 hb3 hb4, if_pos ha]
    simp
  have hvis2 : ∀ p : Coord, p ∈ fcrVisited (convert_array_to_hex g) →
      p ∈ boundsF g ∧ 0 < (pixDZ g p.1 p.2).a.val := by
    intro p hv
    rcases (hinv.mem_iff p).mp hv with ⟨r, hr, hpr⟩
    rcases mem_allRegions.mp hr with ⟨e, he, hre⟩
    have hcol := hinv.colors e he r hre p hpr
    have hb : p ∈ boundsF g := by
      rw [← boundsF_convert]
      exact hcol.1
    obtain ⟨hb1, hb2, hb3, hb4⟩ := mem_boundsF.mp hb
    refine ⟨hb, ?_⟩
    have hc2 := hcol.2
    rw [cellD_convert g hrect p.1 p.2 hb1 hb2 hb3 hb4] at hc2
    by_contra ha
    rw [if_neg ha] at hc2
    exact Option.noConfusion hc2
  refine ⟨?_, ?_, ?_⟩
  · intro p hb ha
    have h1 := hinv.count p
    rw [if_pos (hvis p hb ha)] at h1
    exact h1
  · intro p
    constructor
    · rintro ⟨r, hr, hpr⟩
      exact hvis2 p ((hinv.mem_iff p).mpr ⟨r, hr, hpr⟩)
    · rintro ⟨hb, ha⟩
      exact (hinv.mem_iff p).mp (hvis p hb ha)
  · intro p hb ha r hr hpr
    have := hvis2 p ((hinv.mem_iff p).mpr ⟨r, hr, hpr⟩)
    omega

/-- Witness for C1 on the 2×1 two-color grid. -/
theorem c1_partition_witness :
    Rectangular gex ∧
    ((∀ p : Coord, p ∈ boundsF gex → 0 < (pixDZ gex p.1 p.2).a.val →
        (allRegions (find_connected_regions (convert_array_to_hex gex))).countP
          (fun r => decide (p ∈ r)) = 1) ∧
     (∀ p : Coord,
        (∃ r ∈ allRegions (find_connected_regions (convert_array_to_hex gex)), p ∈ r) ↔
        (p ∈ boundsF gex ∧ 0 < (pixDZ gex p.1 p.2).a.val)) ∧
     (∀ p : Coord, p ∈ boundsF gex → (pixDZ gex p.1 p.2).a.val = 0 →
        ∀ r ∈ allRegions (find_connected_regions (convert_array_to_hex gex)), p ∉ r)) :=
  ⟨by decide, c1_partition gex (by decide)⟩

/-! ## Agreement of the two boundary policies (claim C3) -/

theorem needs_border_eq_true_iff (g : List (List RGBA)) (x y dx dy : ℤ)
    (color : Byte × Byte × Byte) :
    needs_border g x y dx dy color = true ↔
      ((x + dx < 0 ∨ (widthOf g : ℤ) ≤ x + dx ∨ y + dy < 0 ∨ (heightOf g : ℤ) ≤ y + dy) ∨
       ((pixDZ g (x + dx) (y + dy)).a.val = 0 ∨ (pixDZ g (x + dx) (y + dy)).rgb ≠ color)) := by
  simp only [needs_border]
  by_cases hoob : x + dx < 0 ∨ (widthOf g : ℤ) ≤ x + dx ∨ y + dy < 0 ∨
      (heightOf g : ℤ) ≤ y + dy
  · rw [if_pos hoob]
    simp [hoob]
  · rw [if_neg hoob, decide_eq_true_eq]
    constructor
    · intro h
      exact Or.inr h
    · intro h
      rcases h with h | h
      · exact absurd h hoob
      · exact h

/-- C3: For every rectangular grid and every region produced by
`find_connected_regions` from it, the two boundary policies agree: for each
member pixel and each of the four directions, the region-membership test of
`draw_region_outlines` (neighbor coordinate not in the region) emits an
edge exactly when the color-grid test of `needs_border` (neighbor out of
bounds, or alpha = 0, or RGB differing from the region's color) does. -/
theorem c3_policies_agree (g : List (List RGBA)) (hrect : Rectangular g)
    (c : String) (rs : List (List Coord)) (r : List Coord)
    (hm : (c, rs) ∈ find_connected_regions (convert_array_to_hex g)) (hr : r ∈ rs)
    (x y dx dy : ℤ) (hp : ((x, y) : Coord) ∈ r) (hd : ((dx, dy) : Coord) ∈ dirs) :
    (((x + dx, y + dy) : Coord) ∉ r ↔
      needs_border g x y dx dy (pixDZ g x y).rgb = true) := by
  obtain ⟨hinv, hcover⟩ := fcr_inv (convert_array_to_hex g)
  have hcol := hinv.colors (c, rs) hm r hr (x, y) hp
  have hbp : ((x, y) : Coord) ∈ boundsF g := by
    rw [← boundsF_convert]
    exact hcol.1
  obtain ⟨hb1, hb2, hb3, hb4⟩ := mem_boundsF.mp hbp
  have hcell := hcol.2
  rw [cellD_convert g hrect x y hb1 hb2 hb3 hb4] at hcell
  by_cases hap : 0 < (pixDZ g x y).a.val
  swap
  · rw [if_neg hap] at hcell
    exact Option.noConfusion hcell
  rw [if_pos hap] at hcell
  injection hcell with hcc
  rw [needs_border_eq_true_iff]
  constructor
  · intro hq
    by_contra hnb
    push_neg at hnb
    obtain ⟨⟨hn1, hn2, hn3, hn4⟩, hna, hrgb⟩ := hnb
    apply hq
    have hnbounds : ((x + dx, y + dy) : Coord) ∈ boundsF (convert_array_to_hex g) := by
      rw [boundsF_convert]
      exact mem_boundsF.mpr ⟨hn1, hn2, hn3, hn4⟩
    have hncell : cellD (convert_array_to_hex g) (x + dx) (y + dy) = some c := by
      rw [cellD_convert g hrect (x + dx) (y + dy) hn1 hn2 hn3 hn4]
      rw [if_pos (Nat.pos_of_ne_zero hna), hrgb, hcc]
    exact hinv.closed (c, rs) hm r hr (x, y) hp (dx, dy) hd hnbounds hncell
  · intro hnb hq
    have hcolq := hinv.colors (c, rs) hm r hr (x + dx, y + dy) hq
    have hbq : ((x + dx, y + dy) : Coord) ∈ boundsF g := by
      rw [← boundsF_convert]
      exact hcolq.1
    obtain ⟨hq1, hq2, hq3, hq4⟩ := mem_boundsF.mp hbq
    have hcellq := hcolq.2
    rw [cellD_convert g hrect (x + dx) (y + dy) hq1 hq2 hq3 hq4] at hcellq
    by_cases haq : 0 < (pixDZ g (x + dx) (y + dy)).a.val
    swap
    · rw [if_neg haq] at hcellq
      exact Option.noConfusion hcellq
    rw [if_pos haq] at hcellq
    injection hcellq with hcq
    rcases hnb with hnb | hnb
    · rcases hnb with hnb | hnb | hnb | hnb <;> omega
    · rcases hnb with hnb | hnb
      · omega
      · exact hnb (rgb_to_hex_injective (hcq.trans hcc.symm))

/-! ## The 2×1 scenario (claim C4) -/

theorem convert_gex : convert_array_to_hex gex = [[some "FF0000", some "00FF00"]] := by
  decide

theorem regions_gex :
    find_connected_regions (convert_array_to_hex gex) =
      [("FF0000", [[(0, 0)]]), ("00FF00", [[(1, 0)]])] := by
  rw [convert_gex]
  have hrm : rowMajor [[some "FF0000", some "00FF00"]] = [((0 : ℤ), (0 : ℤ)), (1, 0)] := by
    decide
  rw [find_connected_regions, hrm, List.foldl_cons, List.foldl_cons, List.foldl_nil]
  simp +decide [fcrStep, explore.eq_def, cellD, widthOf, heightOf, setdefaultAppend]

/-- Witness for C2 on a region actually produced by the segmenter. -/
theorem c2_boundary_segment_count_witness :
    ([((0 : ℤ), (0 : ℤ))] ∈ allRegions (find_connected_regions (convert_array_to_hex gex))) ∧
    ((outlineSegments [((0 : ℤ), (0 : ℤ))] 5 "segments").length =
        ([((0 : ℤ), (0 : ℤ))].map (sideCount [((0 : ℤ), (0 : ℤ))])).sum ∧
     (∀ p ∈ [((0 : ℤ), (0 : ℤ))], (p.1 - 1, p.2) ∈ [((0 : ℤ), (0 : ℤ))] →
        (p.1 + 1, p.2) ∈ [((0 : ℤ), (0 : ℤ))] → (p.1, p.2 - 1) ∈ [((0 : ℤ), (0 : ℤ))] →
        (p.1, p.2 + 1) ∈ [((0 : ℤ), (0 : ℤ))] →
        segsForPixel [((0 : ℤ), (0 : ℤ))] 5 "segments" p = []) ∧
     (∀ x y : ℤ, [((0 : ℤ), (0 : ℤ))] = [(x, y)] →
        (outlineSegments [((0 : ℤ), (0 : ℤ))] 5 "segments").length = 4)) :=
  ⟨by rw [regions_gex]; decide,
   c2_boundary_segment_count (convert_array_to_hex gex) [((0 : ℤ), (0 : ℤ))]
     (by rw [regions_gex]; decide) 5 "segments"⟩

/-- Witness for C3 on the 2×1 grid: the red pixel's right side. -/
theorem c3_policies_agree_witness :
    Rectangular gex ∧
    (("FF0000", [[((0 : ℤ), (0 : ℤ))]]) ∈
      find_connected_regions (convert_array_to_hex gex)) ∧
    ([((0 : ℤ), (0 : ℤ))] ∈ [[((0 : ℤ), (0 : ℤ))]]) ∧
    (((0 : ℤ), (0 : ℤ)) ∈ [((0 : ℤ), (0 : ℤ))]) ∧
    (((1 : ℤ), (0 : ℤ)) ∈ dirs) ∧
    ((((0 : ℤ) + 1, (0 : ℤ) + 0) : Coord) ∉ [((0 : ℤ), (0 : ℤ))] ↔
      needs_border gex 0 0 1 0 (pixDZ gex 0 0).rgb = true) :=
  ⟨by decide, by rw [regions_gex]; decide, by decide, by decide, by decide,
   c3_policies_agree gex (by decide) "FF0000" [[((0 : ℤ), (0 : ℤ))]] [((0 : ℤ), (0 : ℤ))]
     (by rw [regions_gex]; decide) (by decide) 0 0 1 0 (by decide) (by decide)⟩

theorem pathJoin_right_injective (a : String) {b c : String} (h : pathJoin a b = pathJoin a c) :
    b = c := by
  rw [pathJoin, pathJoin] at h
  by_cases ha : (a == "") = true
  · rwa [if_pos ha, if_pos ha] at h
  · rw [if_neg ha, if_neg ha] at h
    have hd := congrArg String.data h
    rw [String.data_append, String.data_append, String.data_append, String.data_append] at hd
    have := List.append_cancel_left hd
    cases b with
    | mk bd =>
        cases c with
        | mk cd =>
            exact congrArg String.mk this

/-- C4: On the 2×1 grid with an opaque red and an opaque green pixel,
`find_connected_regions` returns exactly two single-pixel regions;
`draw_region_outlines` emits 4 segments per region (8 total); `mono` puts
all 8 segments in the single layer `segments`; `multi` and `multi_colored`
have 2 layers with 4 segments each; and `singles` writes 2 distinct output
documents with 4 segments each. -/
theorem c4_two_pixel_scenario (table : AciTable) (ps : ℚ) (path : String) (u : ℕ) :
    find_connected_regions (convert_array_to_hex gex) =
      [("FF0000", [[(0, 0)]]), ("00FF00", [[(1, 0)]])] ∧
    (outlineSegments [((0 : ℤ), (0 : ℤ))] ps "L").length = 4 ∧
    (outlineSegments [((1 : ℤ), (0 : ℤ))] ps "L").length = 4 ∧
    ((draw_region_outlines table (find_connected_regions (convert_array_to_hex gex))
        path ps u "mono").map
      (fun e => (e.1, e.2.layers, e.2.lines.length,
        (e.2.lines.filter (fun s => s.layer == "segments")).length)) =
      [(path ++ ".dxf", [("segments", some 7)], 8, 8)]) ∧
    ((draw_region_outlines table (find_connected_regions (convert_array_to_hex gex))
        path ps u "multi").map
      (fun e => (e.1, e.2.layers, e.2.lines.length,
        (e.2.lines.filter (fun s => s.layer == "#FF0000")).length,
        (e.2.lines.filter (fun s => s.layer == "#00FF00")).length)) =
      [(path ++ ".dxf", [("#FF0000", some 7), ("#00FF00", some 7)], 8, 4, 4)]) ∧
    ((draw_region_outlines table (find_connected_regions (convert_array_to_hex gex))
        path ps u "multi_colored").map
      (fun e => (e.1, e.2.layers, e.2.lines.length,
        (e.2.lines.filter (fun s => s.layer == "#FF0000")).length,
        (e.2.lines.filter (fun s => s.layer == "#00FF00")).length)) =
      [(path ++ ".dxf",
        [("#FF0000", find_closest_aci table "FF0000"),
         ("#00FF00", find_closest_aci table "00FF00")], 8, 4, 4)]) ∧
    ((draw_region_outlines table (find_connected_regions (convert_array_to_hex gex))
        path ps u "singles").map (fun e => (e.1, e.2.lines.length)) =
      [(pathJoin path "HEX_FF0000.dxf", 4), (pathJoin path "HEX_00FF00.dxf", 4)]) ∧
    pathJoin path "HEX_FF0000.dxf" ≠ pathJoin path "HEX_00FF00.dxf" := by
  refine ⟨regions_gex, ?_, ?_, ?_, ?_, ?_, ?_, ?_⟩
  · simp +decide [outlineSegments, segsForPixel]
  · simp +decide [outlineSegments, segsForPixel]
  · rw [regions_gex]
    simp +decide [draw_region_outlines, drawColorStep, outlineSegments, segsForPixel,
      addLines, addLayer, emptyDoc, pathJoin, lstripHash]
  · rw [regions_gex]
    simp +decide [draw_region_outlines, drawColorStep, outlineSegments, segsForPixel,
      addLines, addLayer, emptyDoc, pathJoin, lstripHash]
  · rw [regions_gex]
    simp +decide [draw_region_outlines, drawColorStep, outlineSegments, segsForPixel,
      addLines, addLayer, emptyDoc, pathJoin, lstripHash]
  · rw [regions_gex]
    simp +decide [draw_region_outlines, drawColorStep, outlineSegments, segsForPixel,
      addLines, addLayer, emptyDoc, lstripHash]
  · intro h
    have := pathJoin_right_injective path h
    exact absurd (congrArg String.data this) (by decide)

/-! ## Segment geometry and unit independence (claim C6) -/

theorem cornerSeg_of_mem_segsForPixel {region : List Coord} {ps : ℚ} {L : String}
    {p : Coord} {s : Seg} (h : s ∈ segsForPixel region ps L p) :
    cornerSeg ps L region p.1 p.2 s := by
  cases p with
  | mk x y =>
      rw [segsForPixel] at h
      simp only [List.mem_append] at h
      rw [cornerSeg]
      rcases h with ((h | h) | h) | h
      · split at h
        · rename_i hc
          rw [List.mem_singleton] at h
          exact Or.inl ⟨hc, h⟩
        · simp at h
      · split at h
        · rename_i hc
          rw [List.mem_singleton] at h
          exact Or.inr (Or.inl ⟨hc, h⟩)
        · simp at h
      · split at h
        · rename_i hc
          rw [List.mem_singleton] at h
          exact Or.inr (Or.inr (Or.inl ⟨hc, h⟩))
        · simp at h
      · split at h
        · rename_i hc
          rw [List.mem_singleton] at h
          exact Or.inr (Or.inr (Or.inr ⟨hc, h⟩))
        · simp at h

theorem mem_outlineSegments {region : List Coord} {ps : ℚ} {L : String} {s : Seg}
    (h : s ∈ outlineSegments region ps L) :
    ∃ x y : ℤ, (x, y) ∈ region ∧ cornerSeg ps L region x y s := by
  rw [outlineSegments] at h
  obtain ⟨p, hp, hs⟩ := List.mem_flatMap.mp h
  exact ⟨p.1, p.2, by rwa [Prod.mk.eta], cornerSeg_of_mem_segsForPixel hs⟩

theorem linesOK_addLines {m : RegionsMap} {ps : ℚ} {d : DxfDoc} {layer : String}
    {r : List Coord} (hd : LinesOK m ps d) (hr : r ∈ allRegions m) :
    LinesOK m ps (addLines d (outlineSegments r ps layer)) := by
  intro s hs
  rcases List.mem_append.mp hs with hs | hs
  · exact hd s hs
  · exact ⟨r, hr, layer, hs⟩

theorem lines_fold_ok (m : RegionsMap) (ps : ℚ) (layer : String) (rs : List (List Coord))
    (hrs : ∀ r ∈ rs, r ∈ allRegions m) :
    ∀ d : DxfDoc, LinesOK m ps d →
      LinesOK m ps (rs.foldl (fun dd r => addLines dd (outlineSegments r ps layer)) d) := by
  induction rs with
  | nil => exact fun d hd => hd
  | cons r t ih =>
      intro d hd
      rw [List.foldl_cons]
      exact ih (fun r' hr' => hrs r' (List.mem_cons_of_mem _ hr'))
        _ (linesOK_addLines hd (hrs r (List.mem_cons_self _ _)))

theorem pair_fold_ok (m : RegionsMap) (ps : ℚ) (layer pth : String) (rs : List (List Coord))
    (hrs : ∀ r ∈ rs, r ∈ allRegions m) :
    ∀ st : DxfDoc × List (String × DxfDoc), LinesOK m ps st.1 →
      (∀ ev ∈ st.2, LinesOK m ps ev.2) →
      LinesOK m ps ((rs.foldl (fun (acc : DxfDoc × List (String × DxfDoc)) r =>
        let d := addLines acc.1 (outlineSegments r ps layer)
        (d, acc.2 ++ [(pth, d)])) st).1) ∧
      (∀ ev ∈ (rs.foldl (fun (acc : DxfDoc × List (String × DxfDoc)) r =>
        let d := addLines acc.1 (outlineSegments r ps layer)
        (d, acc.2 ++ [(pth, d)])) st).2, LinesOK m ps ev.2) := by
  induction rs with
  | nil => exact fun st h1 h2 => ⟨h1, h2⟩
  | cons r t ih =>
      intro st h1 h2
      rw [List.foldl_cons]
      apply ih (fun r' hr' => hrs r' (List.mem_cons_of_mem _ hr'))
      · exact linesOK_addLines h1 (hrs r (List.mem_cons_self _ _))
      · intro ev hev
        rcases List.mem_append.mp hev with hev | hev
        · exact h2 ev hev
        · rw [List.mem_singleton] at hev
          subst hev
          exact linesOK_addLines h1 (hrs r (List.mem_cons_self _ _))

theorem linesOK_ite_addLayer (m : RegionsMap) (ps : ℚ) (c : Prop) [Decidable c]
    (d : DxfDoc) (nm : String) (aci : Option ℕ) (h : LinesOK m ps d) :
    LinesOK m ps (if c then d else addLayer d nm aci) := by
  split
  · exact h
  · intro s hs
    exact h s hs

theorem draw_fold_ok (table : AciTable) (path : String) (ps : ℚ) (u : ℕ) (mode : String)
    (m : RegionsMap) :
    ∀ (l : List (String × List (List Coord))) (st : DxfDoc × List (String × DxfDoc)),
      (∀ e ∈ l, e ∈ m) → LinesOK m ps st.1 → (∀ ev ∈ st.2, LinesOK m ps ev.2) →
      LinesOK m ps ((l.foldl (drawColorStep table path ps u mode) st).1) ∧
      (∀ ev ∈ (l.foldl (drawColorStep table path ps u mode) st).2, LinesOK m ps ev.2) := by
  intro l
  induction l with
  | nil => exact fun st _ h1 h2 => ⟨h1, h2⟩
  | cons e t ih =>
      intro st hl h1 h2
      rw [List.foldl_cons]
      have hem : e ∈ m := hl e (List.mem_cons_self _ _)
      have hrs : ∀ r ∈ e.2, r ∈ allRegions m := fun r hr =>
        mem_allRegions.mpr ⟨e, hem, hr⟩
      apply ih _ (fun e' he' => hl e' (List.mem_cons_of_mem _ he'))
      · rw [drawColorStep]
        split
        · exact h1
        · apply lines_fold_ok m ps _ e.2 hrs
          apply linesOK_ite_addLayer
          exact h1
      · rw [drawColorStep]
        split
        · intro ev hev
          rcases List.mem_append.mp hev with hev | hev
          · exact h2 ev hev
          · refine (pair_fold_ok m ps _ _ e.2 hrs _ ?_ ?_).2 ev hev
            · intro s hs
              simp [addLayer, emptyDoc] at hs
            · intro ev' hev'
              simp at hev'
        · exact h2

theorem lines_fold_unit (ps : ℚ) (layer : String) (rs : List (List Coord)) :
    ∀ d d' : DxfDoc, d.layers = d'.layers → d.lines = d'.lines →
      ((rs.foldl (fun dd r => addLines dd (outlineSegments r ps layer)) d).layers =
        (rs.foldl (fun dd r => addLines dd (outlineSegments r ps layer)) d').layers) ∧
      ((rs.foldl (fun dd r => addLines dd (outlineSegments r ps layer)) d).lines =
        (rs.foldl (fun dd r => addLines dd (outlineSegments r ps layer)) d').lines) := by
  induction rs with
  | nil => exact fun d d' h1 h2 => ⟨h1, h2⟩
  | cons r t ih =>
      intro d d' h1 h2
      rw [List.foldl_cons, List.foldl_cons]
      exact ih _ _ h1 (by rw [addLines, addLines, h2])

theorem pair_fold_unit (ps : ℚ) (layer pth : String) (rs : List (List Coord)) :
    ∀ (st st' : DxfDoc × List (String × DxfDoc)),
      st.1.layers = st'.1.layers → st.1.lines = st'.1.lines →
      st.2.map eventView = st'.2.map eventView →
      (((rs.foldl (fun (acc : DxfDoc × List (String × DxfDoc)) r =>
          let d := addLines acc.1 (outlineSegments r ps layer)
          (d, acc.2 ++ [(pth, d)])) st).1.layers =
        (rs.foldl (fun (acc : DxfDoc × List (String × DxfDoc)) r =>
          let d := addLines acc.1 (outlineSegments r ps layer)
          (d, acc.2 ++ [(pth, d)])) st').1.layers) ∧
       ((rs.foldl (fun (acc : DxfDoc × List (String × DxfDoc)) r =>
          let d := addLines acc.1 (outlineSegments r ps layer)
          (d, acc.2 ++ [(pth, d)])) st).1.lines =
        (rs.foldl (fun (acc : DxfDoc × List (String × DxfDoc)) r =>
          let d := addLines acc.1 (outlineSegments r ps layer)
          (d, acc.2 ++ [(pth, d)])) st').1.lines) ∧
       ((rs.foldl (fun (acc : DxfDoc × List (String × DxfDoc)) r =>
          let d := addLines acc.1 (outlineSegments r ps layer)
          (d, acc.2 ++ [(pth, d)])) st).2.map eventView =
        (rs.foldl (fun (acc : DxfDoc × List (String × DxfDoc)) r =>
          let d := addLines acc.1 (outlineSegments r ps layer)
          (d, acc.2 ++ [(pth, d)])) st').2.map eventView)) := by
  induction rs with
  | nil => exact fun st st' h1 h2 h3 => ⟨h1, h2, h3⟩
  | cons r t ih =>
      intro st st' h1 h2 h3
      rw [List.foldl_cons, List.foldl_cons]
      apply ih
      · rw [addLines, addLines, h1]
      · rw [addLines, addLines, h2]
      · rw [List.map_append, List.map_append, h3]
        congr 1
        rw [List.map_cons, List.map_cons]
        rw [eventView, eventView]
        rw [addLines, addLines, h1, h2]

theorem ite_addLayer_eq {d d' : DxfDoc} (h1 : d.layers = d'.layers) (h2 : d.lines = d'.lines)
    (c c' : Bool) (hc : c = c') (nm : String) (aci : Option ℕ) :
    ((if c = true then d else addLayer d nm aci).layers =
      (if c' = true then d' else addLayer d' nm aci).layers) ∧
    ((if c = true then d else addLayer d nm aci).lines =
      (if c' = true then d' else addLayer d' nm aci).lines) := by
  subst hc
  split
  · exact ⟨h1, h2⟩
  · rw [addLayer, addLayer]
    exact ⟨by rw [h1], h2⟩

theorem draw_fold_unit (table : AciTable) (path : String) (ps : ℚ) (u u' : ℕ)
    (mode : String) (l : List (String × List (List Coord))) :
    ∀ (st st' : DxfDoc × List (String × DxfDoc)),
      st.1.layers = st'.1.layers → st.1.lines = st'.1.lines →
      st.2.map eventView = st'.2.map eventView →
      (((l.foldl (drawColorStep table path ps u mode) st).1.layers =
        (l.foldl (drawColorStep table path ps u' mode) st').1.layers) ∧
       ((l.foldl (drawColorStep table path ps u mode) st).1.lines =
        (l.foldl (drawColorStep table path ps u' mode) st').1.lines) ∧
       ((l.foldl (drawColorStep table path ps u mode) st).2.map eventView =
        (l.foldl (drawColorStep table path ps u' mode) st').2.map eventView)) := by
  induction l with
  | nil => exact fun st st' h1 h2 h3 => ⟨h1, h2, h3⟩
  | cons e t ih =>
      intro st st' h1 h2 h3
      rw [List.foldl_cons, List.foldl_cons]
      apply ih
      · rw [drawColorStep, drawColorStep]
        split
        · exact h1
        · have hcond : (st.1.layers.any fun l =>
              l.1 == (if (mode == "mono") = true then "segments" else "#" ++ e.1)) =
              (st'.1.layers.any fun l =>
              l.1 == (if (mode == "mono") = true then "segments" else "#" ++ e.1)) := by
            rw [h1]
          exact (lines_fold_unit ps _ e.2 _ _
            (ite_addLayer_eq h1 h2 _ _ hcond _ _).1
            (ite_addLayer_eq h1 h2 _ _ hcond _ _).2).1
      · rw [drawColorStep, drawColorStep]
        split
        · exact h2
        · have hcond : (st.1.layers.any fun l =>
              l.1 == (if (mode == "mono") = true then "segments" else "#" ++ e.1)) =
              (st'.1.layers.any fun l =>
              l.1 == (if (mode == "mono") = true then "segments" else "#" ++ e.1)) := by
            rw [h1]
          exact (lines_fold_unit ps _ e.2 _ _
            (ite_addLayer_eq h1 h2 _ _ hcond _ _).1
            (ite_addLayer_eq h1 h2 _ _ hcond _ _).2).2
      · rw [drawColorStep, drawColorStep]
        split
        · rw [List.map_append, List.map_append, h3]
          congr 1
          exact (pair_fold_unit ps _ _ e.2 (addLayer (emptyDoc u) _ _, [])
            (addLayer (emptyDoc u') _ _, []) rfl rfl rfl).2.2
        · exact h3

/-- C6: Every boundary segment emitted by `draw_region_outlines` has its
endpoints at the grid corners of its region pixel scaled by `pixel_size`
with the Y axis negated (left side from `(x·ps, -y·ps)` to
`(x·ps, -(y+1)·ps)`, and correspondingly for the right, top and bottom
sides, per `cornerSeg`); and the `unit` argument affects only the document
header, never the emitted file names, layers, or segment coordinates. -/
theorem c6_segment_geometry (table : AciTable) (m : RegionsMap) (path : String)
    (ps : ℚ) (u u' : ℕ) (mode : String) :
    (∀ e ∈ draw_region_outlines table m path ps u mode, ∀ s ∈ e.2.lines,
      ∃ r ∈ allRegions m, ∃ x y : ℤ, (x, y) ∈ r ∧ ∃ L, cornerSeg ps L r x y s) ∧
    ((draw_region_outlines table m path ps u mode).map eventView =
     (draw_region_outlines table m path ps u' mode).map eventView) := by
  constructor
  · intro e he s hs
    have hfold := draw_fold_ok table path ps u mode m m (emptyDoc u, [])
      (fun e' he' => he') (by intro s' hs'; simp [emptyDoc] at hs')
      (by intro ev hev; simp at hev)
    simp only [draw_region_outlines] at he
    have hLOK : LinesOK m ps e.2 := by
      split at he
      · rcases List.mem_append.mp he with he | he
        · exact hfold.2 e he
        · rw [List.mem_singleton] at he
          subst he
          exact hfold.1
      · exact hfold.2 e he
    obtain ⟨r, hr, L, hsl⟩ := hLOK s hs
    obtain ⟨x, y, hxy, hcs⟩ := mem_outlineSegments hsl
    exact ⟨r, hr, x, y, hxy, L, hcs⟩
  · simp only [draw_region_outlines]
    have hfold := draw_fold_unit table path ps u u' mode m (emptyDoc u, []) (emptyDoc u', [])
      rfl rfl rfl
    by_cases hm : (mode != "singles") = true
    · rw [if_pos hm, if_pos hm, List.map_append, List.map_append, hfold.2.2]
      congr 1
      rw [List.map_cons, List.map_cons, List.map_nil]
      rw [eventView, eventView]
      rw [hfold.1, hfold.2.1]
    · rw [if_neg hm, if_neg hm]
      exact hfold.2.2
